import Mathlib

/-!
Verification of the conversation/tool-orchestration engine of the Maya AI
Agent repository (`maya_ai_agent`).

The development shallowly embeds the relevant Python modules:

* `chat_widget.py`   — the conversation controller (`ChatWidget` handlers),
  modelled as a state machine `CtrlState`/`stepCtrl` whose events are the
  Qt signal handlers (`_on_send`, `_on_response`, `_on_tool_calls`,
  `_on_tool_executed`/`_on_all_tools_done`, `_on_stop`, `_on_error`,
  `_on_response_chunk`).
* `prompt_builder.py` — `_truncate_sliding_window`, the `max_history`
  cut inside `build_messages`, and `get_static_system_prompt`.
* `action_executor.py` — `execute_tool_calls` / `_execute_single`,
  modelled in an exception+event monad so that Python `try/except/finally`
  and the `cmds.undoInfo` open/close calls are explicit.
* `llm_worker.py`    — the retry loop of `LLMWorker.run` and the streaming
  tool-call accumulator of `_handle_stream`.
* `response_cache.py` / `history_manager.py` — `store`, `lookup`,
  eviction, and `find_similar_qa` (with `difflib.SequenceMatcher.ratio`
  abstracted as a score parameter, since `difflib` is standard library,
  not repository code).

Machine integers do not occur on the verified paths; Python floats used as
timestamps and backoff delays are modelled as `Nat` (tenths of seconds for
the backoff, whole seconds for timestamps), with comments where rounding
could matter.
-/

/- ===================================================================
   Part 1: message data model (chat_widget.py conversation dicts)
   =================================================================== -/

/-- Message role strings used by the repository (`system`, `user`,
`assistant`, `tool`). -/
inductive Role where
  | system
  | user
  | assistant
  | tool
deriving DecidableEq, Repr

/-- One element of an assistant message's `tool_calls` array, as rebuilt by
`LLMWorker._handle_stream`: `{"id": ..., "function": {"name": ...,
"arguments": ...}}` (the `type` field is constant and irrelevant here). -/
structure ToolCall where
  id : String
  name : String
  arguments : String
deriving DecidableEq, Repr

/-- A conversation message dict as appended by `ChatWidget`.  Fields that a
given role never sets are `none`/`[]` (absent keys). -/
structure Msg where
  role : Role
  content : Option String
  tool_calls : List ToolCall
  tool_call_id : Option String
  reasoning_content : Option String
deriving DecidableEq, Repr

/-- `{"role": "user", "content": text}` -/
def Msg.userMsg (text : String) : Msg :=
  ⟨Role.user, some text, [], none, none⟩

/-- `{"role": "assistant", "content": text (+ optional reasoning_content)}` -/
def Msg.assistantText (text : String) (reasoning : Option String) : Msg :=
  ⟨Role.assistant, some text, [], none, reasoning⟩

/-- The assistant message appended by `ChatWidget._on_tool_calls`:
`{"role": "assistant", "content": accompanying_text or None,
"tool_calls": tool_calls}`. -/
def Msg.assistantToolCalls (content : Option String) (calls : List ToolCall)
    (reasoning : Option String) : Msg :=
  ⟨Role.assistant, content, calls, none, reasoning⟩

/-- `{"role": "tool", "tool_call_id": cid, "content": content}` -/
def Msg.toolMsg (cid content : String) : Msg :=
  ⟨Role.tool, some content, [], some cid, none⟩

/-- All tool-call ids carried by assistant messages of a conversation. -/
def callIds (conv : List Msg) : List String :=
  conv.flatMap fun m => m.tool_calls.map ToolCall.id

/- ===================================================================
   Part 2: the tool-pairing invariant (spec §8, first invariant)
   =================================================================== -/

/-- Number of `tool`-role messages answering call id `c` that occur after a
given assistant message and before the next `user` message. -/
def countId (post : List Msg) (c : String) : Nat :=
  ((post.takeWhile fun m => !(m.role == Role.user)).filter
      fun m => m.role == Role.tool && m.tool_call_id == some c).length

/-- Decidable version of the spec invariant: every assistant message that
carries `tool_calls` is followed, before the next user message, by exactly
one tool message per call id (no duplicates, no omissions, any order). -/
def pairedOk : List Msg → Bool
  | [] => true
  | m :: rest =>
      ((!(m.role == Role.assistant && !m.tool_calls.isEmpty)) ||
        m.tool_calls.all fun c => countId rest c.id == 1) && pairedOk rest

theorem countId_cons (m : Msg) (l : List Msg) (c : String) :
    countId (m :: l) c =
      if m.role == Role.user then 0
      else (if m.role == Role.tool && m.tool_call_id == some c then 1 else 0)
            + countId l c := by
  by_cases hu : m.role == Role.user
  · simp [countId, List.takeWhile, hu]
  · by_cases ht : m.role == Role.tool && m.tool_call_id == some c
    · simp [countId, List.takeWhile, hu, ht, List.filter]
      omega
    · simp [countId, List.takeWhile, hu, ht, List.filter]

theorem countId_append_zero (post new : List Msg) (c : String)
    (h : countId new c = 0) : countId (post ++ new) c = countId post c := by
  induction post with
  | nil => simpa using h
  | cons m rest ih =>
      rw [List.cons_append, countId_cons, countId_cons, ih]

theorem countId_nonTool_zero (m : Msg) (c : String) (h : m.role ≠ Role.tool) :
    countId [m] c = 0 := by
  rw [countId_cons]
  have h1 : (m.role == Role.tool) = false := by
    simp [h]
  simp [h1, countId]

/-- Appending a block that contains no tool result for any call id already
present preserves the pairing invariant, provided the block is itself
paired. -/
theorem pairedOk_append (conv block : List Msg)
    (h1 : pairedOk conv = true) (h2 : pairedOk block = true)
    (h3 : ∀ m ∈ conv, ∀ c ∈ m.tool_calls, countId block c.id = 0) :
    pairedOk (conv ++ block) = true := by
  induction conv with
  | nil => simpa using h2
  | cons m rest ih =>
      simp only [pairedOk, Bool.and_eq_true] at h1
      have hrest := ih h1.2 (fun m' hm' c hc => h3 m' (List.mem_cons_of_mem _ hm') c hc)
      simp only [List.cons_append, pairedOk, Bool.and_eq_true]
      refine ⟨?_, hrest⟩
      rcases Bool.or_eq_true_iff.mp h1.1 with hnot | hall
      · exact Bool.or_eq_true_iff.mpr (Or.inl hnot)
      · refine Bool.or_eq_true_iff.mpr (Or.inr ?_)
        rw [List.all_eq_true] at hall ⊢
        intro c hc
        have hz := countId_append_zero rest block c.id (h3 m (List.mem_cons_self _ _) c hc)
        have h1 := hall c hc
        show (countId (rest ++ block) c.id == 1) = true
        rw [hz]
        exact h1

/-- A message carrying no `tool_calls` forms a paired singleton block. -/
theorem pairedOk_plain (m : Msg) (h : m.tool_calls = []) :
    pairedOk [m] = true := by
  simp [pairedOk, h]

/-- The tool-result messages appended for a list of call ids. -/
def toolResultsFor (ids : List String) (content : String → String) : List Msg :=
  ids.map fun i => Msg.toolMsg i (content i)

theorem countId_toolResultsFor (ids : List String) (content : String → String)
    (c : String) : countId (toolResultsFor ids content) c = ids.count c := by
  induction ids with
  | nil => rfl
  | cons i rest ih =>
      rw [toolResultsFor, List.map_cons, countId_cons]
      have hrest : countId (toolResultsFor rest content) c = rest.count c := ih
      rw [toolResultsFor] at hrest
      by_cases hic : i = c
      · subst hic
        simp only [Msg.toolMsg] at hrest ⊢
        simp [hrest, List.count_cons]
        omega
      · have hbeq : (some i == some c) = false := by simp [hic]
        simp only [Msg.toolMsg] at hrest ⊢
        simp [hbeq, hrest, List.count_cons, hic]

theorem pairedOk_toolResultsFor (ids : List String) (content : String → String) :
    pairedOk (toolResultsFor ids content) = true := by
  induction ids with
  | nil => rfl
  | cons i rest ih =>
      rw [toolResultsFor, List.map_cons]
      simp only [pairedOk, Msg.toolMsg, Bool.and_eq_true]
      constructor
      · simp
      · simpa [toolResultsFor] using ih

/-- An assistant `tool_calls` message immediately followed by one tool
result per call id (ids duplicate-free) is a paired block. -/
theorem pairedOk_round_block (asst : Msg) (ids : List String)
    (content : String → String)
    (hids : asst.tool_calls.map ToolCall.id = ids) (hnd : ids.Nodup) :
    pairedOk (asst :: toolResultsFor ids content) = true := by
  simp only [pairedOk, Bool.and_eq_true]
  constructor
  · rcases h : asst.tool_calls with _ | ⟨tc, rest⟩
    · simp [h]
    · refine Bool.or_eq_true_iff.mpr (Or.inr ?_)
      rw [List.all_eq_true]
      intro c hc
      have hmem : c.id ∈ ids := by
        rw [← hids]
        exact List.mem_map_of_mem ToolCall.id (by rw [h]; exact hc)
      rw [countId_toolResultsFor]
      simp [List.count_eq_one_of_mem hnd hmem]
  · exact pairedOk_toolResultsFor ids content

/-- A round block contributes no tool result for ids outside its own. -/
theorem countId_round_block_zero (asst : Msg) (ids : List String)
    (content : String → String) (c : String)
    (hrole : asst.role = Role.assistant) (hc : c ∉ ids) :
    countId (asst :: toolResultsFor ids content) c = 0 := by
  rw [countId_cons]
  have h1 : (asst.role == Role.user) = false := by simp [hrole]
  have h2 : (asst.role == Role.tool) = false := by simp [hrole]
  simp only [h1, h2, Bool.false_and, if_neg (by simp : ¬False), if_false]
  simp [countId_toolResultsFor, List.count_eq_zero.mpr hc]

/- ===================================================================
   Part 3: prompt_builder.py
   =================================================================== -/

/-- Used to express Python's `conversation[i]` reads; every use below is at
an index proved in range, except where an out-of-range read is modelled as
an explicit `Option.none` (IndexError). -/
def defaultMsg : Msg := ⟨Role.system, none, [], none, none⟩

/-- `_count_rounds`: number of user messages in the conversation. -/
def count_rounds (conversation : List Msg) : Nat :=
  conversation.countP fun m => m.role == Role.user

/-- The `round_starts` list computed by `_truncate_sliding_window`: indices
of all user messages. -/
def round_starts (conv : List Msg) : List Nat :=
  (List.range conv.length).filter fun i => (conv.getD i defaultMsg).role == Role.user

/-- The `while cut_idx > 0 and conversation[cut_idx].get("role") == "tool":
cut_idx -= 1` loop shared by `_truncate_sliding_window` and the
`max_history` safety net in `build_messages`.  Indices are in range at
every use of this function (see `history_cut` for the one Python call site
that can go out of range). -/
def step_back_while_tool (conv : List Msg) : Nat → Nat
  | 0 => 0
  | i + 1 =>
      if (conv.getD (i + 1) defaultMsg).role == Role.tool then
        step_back_while_tool conv i
      else i + 1

/-- The index Python computes as `round_starts[-max_rounds]`; note that
`lst[-0]` is `lst[0]` (negative zero indexing), and for `max_rounds ≥ 1`
the index `len(round_starts) - max_rounds` is in range at the call site. -/
def truncate_cut_index (conv : List Msg) (max_rounds : Nat) : Nat :=
  if max_rounds = 0 then (round_starts conv).headD 0
  else (round_starts conv).getD ((round_starts conv).length - max_rounds) 0

/-- `_truncate_sliding_window`: keep the last `max_rounds` rounds. -/
def truncate_sliding_window (conv : List Msg) (max_rounds : Nat) : List Msg :=
  if conv.isEmpty then []
  else if (round_starts conv).length ≤ max_rounds then conv
  else conv.drop (step_back_while_tool conv (truncate_cut_index conv max_rounds))

/-- The `max_history` hard ceiling inside `build_messages` (lines 244-248).
When `max_history = 0` and the list is nonempty, Python evaluates
`conv[len(conv)]` in the loop condition and raises IndexError; that is
modelled as `none`. -/
def history_cut (conv : List Msg) (max_history : Nat) : Option (List Msg) :=
  if conv.length > max_history then
    if max_history = 0 then none
    else some (conv.drop (step_back_while_tool conv (conv.length - max_history)))
  else some conv

/-- The conversation-history slice assembled by `build_messages` (the part
between the static system message and the dynamic-context injection; the
injection rewrites message contents in place and does not move or retype
any message). -/
def build_history_slice (conv : List Msg) (max_history max_rounds : Nat) :
    Option (List Msg) :=
  history_cut (truncate_sliding_window conv max_rounds) max_history

theorem mem_round_starts {conv : List Msg} {i : Nat} :
    i ∈ round_starts conv ↔
      i < conv.length ∧ (conv.getD i defaultMsg).role = Role.user := by
  simp [round_starts, List.mem_filter, List.mem_range]

theorem step_back_le (conv : List Msg) (i : Nat) :
    step_back_while_tool conv i ≤ i := by
  induction i with
  | zero => simp [step_back_while_tool]
  | succ n ih =>
      rw [step_back_while_tool]
      split
      · omega
      · omega

theorem step_back_of_user {conv : List Msg} {i : Nat}
    (h : (conv.getD i defaultMsg).role = Role.user) :
    step_back_while_tool conv i = i := by
  cases i with
  | zero => rfl
  | succ n =>
      rw [step_back_while_tool, if_neg]
      intro hc
      rw [h] at hc
      exact absurd hc (by decide)

theorem step_back_result (conv : List Msg) (i : Nat) :
    step_back_while_tool conv i = 0 ∨
      (conv.getD (step_back_while_tool conv i) defaultMsg).role ≠ Role.tool := by
  induction i with
  | zero => exact Or.inl rfl
  | succ n ih =>
      rw [step_back_while_tool]
      by_cases h : ((conv.getD (n + 1) defaultMsg).role == Role.tool) = true
      · rw [if_pos h]
        exact ih
      · rw [if_neg h]
        right
        intro hc
        exact h (by rw [hc]; decide)

theorem count_rounds_eq_round_starts_length (conv : List Msg) :
    (round_starts conv).length = count_rounds conv := by
  rw [round_starts, count_rounds, ← List.countP_eq_length_filter]
  induction conv with
  | nil => rfl
  | cons m t ih =>
      have hlen : (m :: t).length = t.length + 1 := rfl
      rw [hlen, List.range_succ_eq_map, List.countP_cons, List.countP_map]
      have harg : ∀ i : Nat,
          ((m :: t).getD (Nat.succ i) defaultMsg) = t.getD i defaultMsg := by
        intro i
        exact List.getD_cons_succ
      have : List.countP
            ((fun i => ((m :: t).getD i defaultMsg).role == Role.user) ∘ Nat.succ)
            (List.range t.length)
          = List.countP (fun i => (t.getD i defaultMsg).role == Role.user)
            (List.range t.length) := by
        apply List.countP_congr
        intro i _
        simp [Function.comp, harg i]
      rw [this, ih, List.countP_cons]
      simp [List.getD_cons_zero]

/-- The first message of the round-aware slice, if any, is a user message —
provided the conversation itself begins with a user message (needed only
for the case where no truncation happens at all). -/
theorem truncate_head_user (conv : List Msg) (max_rounds : Nat)
    (hwf : ∀ m, conv.head? = some m → m.role = Role.user) :
    ∀ m, (truncate_sliding_window conv max_rounds).head? = some m →
      m.role = Role.user := by
  intro m hm
  by_cases hemp : conv.isEmpty
  · rw [truncate_sliding_window, if_pos hemp] at hm
    simp at hm
  · rw [truncate_sliding_window, if_neg hemp] at hm
    by_cases hle : (round_starts conv).length ≤ max_rounds
    · rw [if_pos hle] at hm
      exact hwf m hm
    · rw [if_neg hle] at hm
      have hlen : 0 < (round_starts conv).length := by omega
      have hmem : truncate_cut_index conv max_rounds ∈ round_starts conv := by
        rw [truncate_cut_index]
        by_cases h0 : max_rounds = 0
        · rw [if_pos h0]
          rcases hrs : round_starts conv with _ | ⟨a, l⟩
          · rw [hrs] at hlen
            simp at hlen
          · simp [List.headD]
        · rw [if_neg h0]
          have hidx : (round_starts conv).length - max_rounds <
              (round_starts conv).length := by omega
          rw [List.getD_eq_getElem _ _ hidx]
          exact List.getElem_mem hidx
      have hrange := (mem_round_starts.mp hmem).1
      have huser := (mem_round_starts.mp hmem).2
      rw [step_back_of_user huser, List.head?_drop,
        List.getElem?_eq_getElem hrange] at hm
      rw [List.getD_eq_getElem _ _ hrange] at huser
      injection hm with hm'
      rw [← hm']
      exact huser

/-- The `max_history` cut never produces a slice starting with a tool
message, provided its input starts (if nonempty) with a user message. -/
theorem history_cut_no_orphan (conv : List Msg) (max_history : Nat)
    (hwf : ∀ m, conv.head? = some m → m.role = Role.user) :
    ∀ slice, history_cut conv max_history = some slice →
      ∀ m, slice.head? = some m → m.role ≠ Role.tool := by
  intro slice hslice m hm
  rw [history_cut] at hslice
  by_cases hgt : conv.length > max_history
  · simp only [hgt, if_true] at hslice
    by_cases h0 : max_history = 0
    · simp [h0] at hslice
    · simp only [h0, if_false, Option.some.injEq] at hslice
      subst hslice
      rcases step_back_result conv (conv.length - max_history) with hz | hnt
      · rw [hz, List.drop_zero] at hm
        have := hwf m hm
        simp [this]
      · set st := step_back_while_tool conv (conv.length - max_history) with hst
        have hlt : st < conv.length := by
          have h1 := step_back_le conv (conv.length - max_history)
          omega
        rw [List.head?_drop, List.getElem?_eq_getElem hlt] at hm
        injection hm with hm'
        rw [List.getD_eq_getElem _ _ hlt] at hnt
        rw [← hm']
        exact hnt
  · simp only [hgt, if_false, Option.some.injEq] at hslice
    subst hslice
    have := hwf m hm
    simp [this]

/-- C3: for every well-formed conversation (beginning with a user message,
which also subsumes the pairing invariant's effect on the head) and every
`max_rounds`/`max_history` setting, the history slice produced by the
Prompt Builder never begins with an orphaned tool-role message; and when
the conversation has more than `max_rounds` user messages, the round-aware
slice begins exactly at a user-message boundary. -/
theorem C3_no_orphan_slice (conv : List Msg) (max_history max_rounds : Nat)
    (hwf : ∀ m, conv.head? = some m → m.role = Role.user) :
    (∀ slice, build_history_slice conv max_history max_rounds = some slice →
        ∀ m, slice.head? = some m → m.role ≠ Role.tool) ∧
    (max_rounds < count_rounds conv →
        ∀ m, (truncate_sliding_window conv max_rounds).head? = some m →
          m.role = Role.user) := by
  constructor
  · intro slice hslice m hm
    exact history_cut_no_orphan _ max_history
      (truncate_head_user conv max_rounds hwf) slice hslice m hm
  · intro _ m hm
    exact truncate_head_user conv max_rounds hwf m hm

/-- Concrete two-round conversation used to instantiate `C3_no_orphan_slice`. -/
def convW3 : List Msg :=
  [Msg.userMsg "a",
   Msg.assistantToolCalls none [⟨"id1", "get_scene_info", "\x7b\x7d"⟩] none,
   Msg.toolMsg "id1" "ok",
   Msg.userMsg "b",
   Msg.assistantText "done" none]

theorem C3_witness :
    (∀ m, convW3.head? = some m → m.role = Role.user) ∧
    1 < count_rounds convW3 ∧
    (truncate_sliding_window convW3 1).head? = some (Msg.userMsg "b") ∧
    (Msg.userMsg "b").role = Role.user := by
  have hwf : ∀ m, convW3.head? = some m → m.role = Role.user := by
    intro m hm
    have h : m = Msg.userMsg "a" := by
      have : convW3.head? = some (Msg.userMsg "a") := rfl
      rw [this] at hm
      exact (Option.some.injEq _ _ ▸ hm).symm
    rw [h]
    rfl
  refine ⟨hwf, by decide, by decide, ?_⟩
  exact (C3_no_orphan_slice convW3 3 1 hwf).2 (by decide) (Msg.userMsg "b") (by decide)

/- ===================================================================
   Part 4: prompt_builder.py static system prompt cache
   =================================================================== -/

/-- The fixed body of `_build_static_system_prompt` (its `format` slot for
`tools_section` is appended by `build_static_system_prompt` below). -/
def staticPromptBase : String :=
  "你是一个运行在 Autodesk Maya 中的 AI 助手，专门帮助动画师完成日常工作。\n" ++
  "你精通 Maya Python API (maya.cmds, maya.api)、动画原理、绑定技术和工作流优化。\n" ++
  "请用中文回答，保持专业且简洁。\n" ++
  "\n" ++
  "## 关于场景信息的核心原则\n" ++
  "每次用户发消息时，系统会自动注入当前 Maya 场景的实时状态数据，\n" ++
  "包括：场景统计、对象列表、层级结构、变换值、材质、选择状态等。\n" ++
  "【绝对原则】你回答关于场景的问题时，**必须严格基于注入的场景状态数据**。\n" ++
  "如果场景数据中没有某个对象，你**绝对不能**编造或猜测它存在。\n" ++
  "如果你不确定，请明确告诉用户你看到了什么，或使用 execute_python_code 查询更多详情。\n" ++
  "**禁止凭空编造场景内容。**\n" ++
  "\n" ++
  "## 视觉能力\n" ++
  "你拥有 capture_viewport 工具，可以截取 Maya 视口画面来查看场景。\n" ++
  "当用户要求你查看、分析、评价场景画面、检查模型外观、灯光效果、材质、" ++
  "动画姿态等视觉相关内容时，你应该主动调用 capture_viewport 工具。\n" ++
  "截图后你会在下一条消息中收到视口画面图片，请基于实际看到的画面进行分析。\n" ++
  "\n" ++
  "### 视觉分析核心准则（最高优先级规则）\n" ++
  "当你收到视口截图时，你**必须严格遵守以下规则**：\n" ++
  "\n" ++
  "**规则0（最高优先级）：几何分析结论不可推翻**\n" ++
  "截图时系统会自动运行精确的几何分析（采样顶点位置、计算区域分布），\n" ++
  "如果分析报告中出现 \x27确定没有头部\x27、\x27确定没有脚部\x27 等结论，\n" ++
  "你**必须完全采纳这些结论**，即使你觉得图片中可能看到了某些东西。\n" ++
  "原因：几何分析是基于精确数学计算的，比视觉观察更可靠。\n" ++
  "绝对不要试图用\x27顶点数量多\x27、\x27包围盒大\x27等理由去反驳几何分析的结论。\n" ++
  "\n" ++
  "1. **只描述你在图片中实际看到的内容**，不要编造、推测或添加图片中不存在的细节。\n" ++
  "2. **数据优先于视觉猜测**：当几何分析数据与你的视觉印象冲突时，以数据为准。\n" ++
  "3. **准确描述姿态**：不要笼统地说\x27T-Pose\x27或\x27A-Pose\x27，而要具体描述你看到的：" ++
  "手臂角度大约是多少度？双腿是否并拢还是分开？手指是否可见？躯干是否直立？\n" ++
  "4. **如实报告缺失部位**：如果几何分析或图片显示模型缺少头部、手部、脚部等，" ++
  "必须在回答开头就明确指出，不要假设它们存在。\n" ++
  "5. **区分显示模式**：准确描述你看到的渲染模式（线框、实体、纹理、X光等）。\n" ++
  "6. **不确定就说不确定**：如果图片模糊或你无法确定某个细节，明确说\x27无法确定\x27。\n" ++
  "\n" ++
  "## execute_python_code 使用策略\n" ++
  "你拥有 execute_python_code 工具，可以在 Maya 中执行任意 Python 代码。\n" ++
  "使用策略：\n" ++
  "- 当有对应的专用工具时（如 zero_out_transforms、set_keyframe），优先使用专用工具\n" ++
  "- 当专用工具无法完成需求时，使用 execute_python_code 编写并执行 Maya Python 代码\n" ++
  "- 查询场景信息、复杂批量操作、专用工具未覆盖的操作都应使用 execute_python_code\n" ++
  "- 代码中用 print() 输出结果，输出会返回给你用于后续判断\n" ++
  "- 可以使用 maya.cmds、maya.mel、maya.api.OpenMaya 等所有 Maya API\n" ++
  "- 不要在代码中 import 已不需要的模块，保持简洁\n"

/-- `_build_static_system_prompt`.  The registry is its ordered
name → schema table (`get_all_names` / `get_all_schemas`); `dumpSchemas`
abstracts `json.dumps(tool_schemas, ensure_ascii=False, indent=2)`
(standard library). -/
def build_static_system_prompt {Schema : Type} (dumpSchemas : List Schema → String)
    (reg : List (String × Schema)) : String :=
  let tool_names := reg.map Prod.fst
  let tool_schemas := reg.map Prod.snd
  let tools_section :=
    if tool_names.isEmpty then ""
    else
      ("\n\n## 重要：工具调用规则\n" ++
       "你拥有以下工具，可以直接在 Maya 中执行操作。\n" ++
       "【核心规则】当用户要求你执行任何 Maya 操作时（如归零、创建物体、打关键帧等），" ++
       "你 **必须** 使用 function calling（工具调用）来执行，" ++
       "**绝对禁止** 输出 Python 代码让用户自己去执行。\n" ++
       "你可以直接操作 Maya 场景，不需要用户手动运行任何代码。\n" ++
       "【完成规则】当你收到工具执行的结果后，**必须直接用自然语言回复用户**，" ++
       "告诉用户操作的结果，**不要再次调用相同的工具**。" ++
       "每个操作只需要调用一次工具即可，收到结果就意味着操作已经成功执行完毕。\n" ++
       "可用工具: " ++ String.intercalate ", " tool_names ++ "\n") ++
      ("\n### 工具 Schema 参考\n```json\n" ++ dumpSchemas tool_schemas ++ "\n```\n")
  staticPromptBase ++ tools_section

/-- `get_static_system_prompt`: returns the prompt together with the new
value of the module-level `_STATIC_SYSTEM_PROMPT_CACHE` global. -/
def get_static_system_prompt {Schema : Type} (dumpSchemas : List Schema → String)
    (reg : List (String × Schema)) (cache : Option String) (force_rebuild : Bool) :
    String × Option String :=
  match cache, force_rebuild with
  | some p, false => (p, some p)
  | some _, true =>
      (build_static_system_prompt dumpSchemas reg,
        some (build_static_system_prompt dumpSchemas reg))
  | none, _ =>
      (build_static_system_prompt dumpSchemas reg,
        some (build_static_system_prompt dumpSchemas reg))

/-- `invalidate_prompt_cache` resets the global to `None`. -/
def invalidate_prompt_cache : Option String := none

/-- The result of the `n`-th call in a session that calls
`get_static_system_prompt()` repeatedly without `force_rebuild` and without
invalidating the cache, starting from cache state `c`. -/
def get_static_chain {Schema : Type} (dumpSchemas : List Schema → String)
    (reg : List (String × Schema)) : Nat → Option String → String
  | 0, c => (get_static_system_prompt dumpSchemas reg c false).1
  | n + 1, c =>
      get_static_chain dumpSchemas reg n (get_static_system_prompt dumpSchemas reg c false).2

theorem get_static_chain_const {Schema : Type} (dumpSchemas : List Schema → String)
    (reg : List (String × Schema)) (n : Nat) (c : Option String) :
    get_static_chain dumpSchemas reg n c =
      (get_static_system_prompt dumpSchemas reg c false).1 := by
  induction n generalizing c with
  | zero => rfl
  | succ k ih =>
      rw [get_static_chain, ih]
      cases c <;> rfl

/-- C10: within one session with an unchanged tool set, no forced rebuild
and no cache invalidation, every two calls to the static-system-prompt
constructor return byte-identical content (here: any two calls in an
uninterrupted chain starting from any cache state return equal strings). -/
theorem C10_static_prompt_idempotent {Schema : Type}
    (dumpSchemas : List Schema → String) (reg : List (String × Schema))
    (c : Option String) (m n : Nat) :
    get_static_chain dumpSchemas reg m c = get_static_chain dumpSchemas reg n c := by
  rw [get_static_chain_const, get_static_chain_const]

/- ===================================================================
   Part 5: action_executor.py
   =================================================================== -/

/-- Keyword arguments decoded from a tool call's JSON `arguments` string
(`{}` decodes to `[]`; payload details are irrelevant to the dispatcher). -/
def Args : Type := List (String × String)

instance : DecidableEq Args := by
  unfold Args
  infer_instance

instance : Repr Args := by
  unfold Args
  infer_instance

/-- A Python value returned by a tool callable: either a dict (of which the
dispatcher reads/serializes the `success`/`message` shape) or any non-dict
value, kept as its `str()` form. -/
inductive PyVal where
  | asDict (success : Bool) (message : String)
  | nonDict (s : String)
deriving DecidableEq, Repr

/-- Behaviour of one invocation of a tool callable: return or raise. -/
inductive CallOutcome where
  | ret (v : PyVal)
  | raise (exc : String)
deriving DecidableEq, Repr

/-- The result dict built by `_execute_single`. -/
structure RMsg where
  success : Bool
  message : String
deriving DecidableEq, Repr

/-- `if not isinstance(result, dict): result = {"success": True,
"message": str(result)}` -/
def normalizeResult : PyVal → RMsg
  | PyVal.asDict s m => ⟨s, m⟩
  | PyVal.nonDict s => ⟨true, s⟩

/-- `traceback.format_exc()` for an exception with text `e` (standard
library; modelled as the header plus the exception text). -/
def format_exc (e : String) : String :=
  "Traceback (most recent call last):\n" ++ e

/-- `json.dumps(result, ensure_ascii=False)` for a result dict. -/
def dumpResult (r : RMsg) : String :=
  "\x7b\"success\": " ++ (if r.success then "true" else "false") ++
    ", \"message\": \"" ++ r.message ++ "\"\x7d"

/-- Observable actions of the dispatcher: Maya undo-chunk operations, tool
invocations, and the Qt signals `execution_finished`/`execution_error`. -/
inductive ExecEvent where
  | undoOpen (chunkName : String)
  | undoClose
  | invoke (name : String) (args : Args)
  | emitFinished (callId funcName resultJson : String)
  | emitError (msg : String)
deriving DecidableEq, Repr

/-- Execution monad for the dispatcher: an event trace plus Python
exception propagation (`Except.error` = an uncaught exception escaping). -/
def EM (α : Type) : Type := List ExecEvent → Except String α × List ExecEvent

def EM.pure {α : Type} (a : α) : EM α := fun evs => (Except.ok a, evs)

/-- Sequencing with exception propagation (a raised exception skips the
continuation, as in Python). -/
def emSeq {α β : Type} (x : EM α) (f : α → EM β) : EM β := fun evs =>
  match x evs with
  | (Except.ok a, evs') => f a evs'
  | (Except.error e, evs') => (Except.error e, evs')

def emRecord (e : ExecEvent) : EM Unit := fun evs => (Except.ok (), evs ++ [e])

def emThrow {α : Type} (e : String) : EM α := fun evs => (Except.error e, evs)

/-- Python `try: body except Exception: handler finally: fin` where the
handler catches every exception and `fin` runs on all paths. -/
def pyTryExceptFinally {α : Type} (body : EM α) (handler : String → EM α)
    (fin : EM Unit) : EM α := fun evs =>
  match body evs with
  | (Except.ok a, evs1) =>
      match fin evs1 with
      | (Except.ok _, evs2) => (Except.ok a, evs2)
      | (Except.error f, evs2) => (Except.error f, evs2)
  | (Except.error e, evs1) =>
      match handler e evs1 with
      | (Except.ok a, evs2) =>
          match fin evs2 with
          | (Except.ok _, evs3) => (Except.ok a, evs3)
          | (Except.error f, evs3) => (Except.error f, evs3)
      | (Except.error e2, evs2) =>
          match fin evs2 with
          | (Except.ok _, evs3) => (Except.error e2, evs3)
          | (Except.error f, evs3) => (Except.error f, evs3)

/-- `ActionExecutor._execute_single`: look up the callable, open an undo
chunk, invoke inside try/except/finally, emit exactly one result. -/
def execute_single (get_func : String → Option (Args → CallOutcome))
    (call_id func_name : String) (args : Args) : EM Unit :=
  match get_func func_name with
  | none =>
      emRecord (ExecEvent.emitFinished call_id func_name
        (dumpResult ⟨false, "工具函数未找到: " ++ func_name⟩))
  | some func =>
      emSeq (emRecord (ExecEvent.undoOpen ("AIAgent_" ++ func_name))) fun _ =>
      emSeq (pyTryExceptFinally
          (emSeq (emRecord (ExecEvent.invoke func_name args)) fun _ =>
            match func args with
            | CallOutcome.ret v => EM.pure (normalizeResult v)
            | CallOutcome.raise e => emThrow e)
          (fun e => EM.pure (⟨false, "执行出错:\n" ++ format_exc e⟩ : RMsg))
          (emRecord ExecEvent.undoClose)) fun result =>
      emRecord (ExecEvent.emitFinished call_id func_name (dumpResult result))

/-- One parsed element of the `tool_calls` array
(`tc.get("id", "unknown")`, `function.name`, `function.arguments`). -/
structure ToolCallReq where
  id : String
  name : String
  arguments : String
deriving DecidableEq, Repr

/-- The per-call body of the `execute_tool_calls` loop: parse arguments
(malformed JSON degrades to `{}`), emit an immediate failure for unknown
tools, and collect the remaining calls for deferred main-thread
execution (`maya.utils.executeDeferred`). -/
def dispatchLoop (parseArgs : String → Option Args)
    (get_func : String → Option (Args → CallOutcome)) :
    List ToolCallReq → EM (List (String × String × Args))
  | [] => EM.pure []
  | tc :: rest =>
      let args := match parseArgs tc.arguments with
        | some a => a
        | none => []
      if (get_func tc.name).isSome then
        emSeq (dispatchLoop parseArgs get_func rest) fun others =>
        EM.pure ((tc.id, tc.name, args) :: others)
      else
        emSeq (emRecord (ExecEvent.emitFinished tc.id tc.name
            (dumpResult ⟨false, "未知工具: " ++ tc.name⟩))) fun _ =>
        dispatchLoop parseArgs get_func rest

/-- The deferred executions queued by the loop run afterwards, in order. -/
def runDeferred (get_func : String → Option (Args → CallOutcome)) :
    List (String × String × Args) → EM Unit
  | [] => EM.pure ()
  | (cid, fn, args) :: rest =>
      emSeq (execute_single get_func cid fn args) fun _ =>
      runDeferred get_func rest

/-- `ActionExecutor.execute_tool_calls`; `tool_calls = none` models a
`tool_calls_json` string that fails `json.loads`. -/
def execute_tool_calls (parseArgs : String → Option Args)
    (get_func : String → Option (Args → CallOutcome))
    (tool_calls : Option (List ToolCallReq)) : EM Unit :=
  match tool_calls with
  | none => emRecord (ExecEvent.emitError "tool_calls JSON 解析失败")
  | some tcs =>
      emSeq (dispatchLoop parseArgs get_func tcs) fun deferred =>
      runDeferred get_func deferred

/-- Closed form of the events produced by one `_execute_single` call. -/
def singleEvents (get_func : String → Option (Args → CallOutcome))
    (call_id func_name : String) (args : Args) : List ExecEvent :=
  match get_func func_name with
  | none =>
      [ExecEvent.emitFinished call_id func_name
        (dumpResult ⟨false, "工具函数未找到: " ++ func_name⟩)]
  | some func =>
      [ExecEvent.undoOpen ("AIAgent_" ++ func_name),
       ExecEvent.invoke func_name args,
       ExecEvent.undoClose,
       ExecEvent.emitFinished call_id func_name
         (dumpResult (match func args with
           | CallOutcome.ret v => normalizeResult v
           | CallOutcome.raise e => ⟨false, "执行出错:\n" ++ format_exc e⟩))]

theorem execute_single_run (get_func : String → Option (Args → CallOutcome))
    (call_id func_name : String) (args : Args) (evs : List ExecEvent) :
    execute_single get_func call_id func_name args evs =
      (Except.ok (), evs ++ singleEvents get_func call_id func_name args) := by
  rcases hf : get_func func_name with _ | func
  · simp [execute_single, singleEvents, hf, emRecord]
  · rcases ha : func args with v | e
    · simp [execute_single, singleEvents, hf, ha, emSeq, emRecord,
        pyTryExceptFinally, EM.pure]
    · simp [execute_single, singleEvents, hf, ha, emSeq, emRecord,
        pyTryExceptFinally, EM.pure, emThrow]

/-- The events of the dispatch loop: an immediate failure result per
unknown tool, in request order. -/
def loopEvents (get_func : String → Option (Args → CallOutcome)) :
    List ToolCallReq → List ExecEvent :=
  List.filterMap fun tc =>
    if (get_func tc.name).isSome then none
    else some (ExecEvent.emitFinished tc.id tc.name
      (dumpResult ⟨false, "未知工具: " ++ tc.name⟩))

/-- The deferred-execution queue: one entry per known tool, in request
order, with malformed arguments degraded to `[]`. -/
def deferredQueue (parseArgs : String → Option Args)
    (get_func : String → Option (Args → CallOutcome)) :
    List ToolCallReq → List (String × String × Args) :=
  List.filterMap fun tc =>
    if (get_func tc.name).isSome then
      some (tc.id, tc.name,
        (match parseArgs tc.arguments with
          | some a => a
          | none => []))
    else none

theorem dispatchLoop_run (parseArgs : String → Option Args)
    (get_func : String → Option (Args → CallOutcome))
    (tcs : List ToolCallReq) (evs : List ExecEvent) :
    dispatchLoop parseArgs get_func tcs evs =
      (Except.ok (deferredQueue parseArgs get_func tcs),
        evs ++ loopEvents get_func tcs) := by
  induction tcs generalizing evs with
  | nil => simp [dispatchLoop, deferredQueue, loopEvents, EM.pure]
  | cons tc rest ih =>
      by_cases hk : (get_func tc.name).isSome
      · simp [dispatchLoop, hk, emSeq, ih, EM.pure, deferredQueue, loopEvents]
      · simp [dispatchLoop, hk, emSeq, emRecord, ih, EM.pure, deferredQueue,
          loopEvents]

theorem runDeferred_run (get_func : String → Option (Args → CallOutcome))
    (ds : List (String × String × Args)) (evs : List ExecEvent) :
    runDeferred get_func ds evs =
      (Except.ok (),
        evs ++ ds.flatMap fun d => singleEvents get_func d.1 d.2.1 d.2.2) := by
  induction ds generalizing evs with
  | nil => simp [runDeferred, EM.pure]
  | cons d rest ih =>
      rcases d with ⟨cid, fn, args⟩
      simp [runDeferred, emSeq, execute_single_run, ih]

theorem execute_tool_calls_run (parseArgs : String → Option Args)
    (get_func : String → Option (Args → CallOutcome))
    (tcs : List ToolCallReq) (evs : List ExecEvent) :
    execute_tool_calls parseArgs get_func (some tcs) evs =
      (Except.ok (),
        evs ++ loopEvents get_func tcs ++
          (deferredQueue parseArgs get_func tcs).flatMap
            fun d => singleEvents get_func d.1 d.2.1 d.2.2) := by
  simp [execute_tool_calls, emSeq, dispatchLoop_run, runDeferred_run]

def isUndoOpenEv : ExecEvent → Bool
  | ExecEvent.undoOpen _ => true
  | _ => false

def isUndoCloseEv : ExecEvent → Bool
  | ExecEvent.undoClose => true
  | _ => false

/-- C4: for every dispatched tool invocation, the undo chunk opened before
calling the tool is closed even when the callable raises (open and close
events balance on every path); any exception raised inside the callable is
caught and becomes a failure result carrying a diagnostic traceback; and no
exception ever propagates out of the dispatcher (the run always returns
`Except.ok`). -/
theorem C4_undo_chunk_and_isolation
    (get_func : String → Option (Args → CallOutcome))
    (call_id func_name : String) (args : Args) :
    (execute_single get_func call_id func_name args []).1 = Except.ok () ∧
    ((execute_single get_func call_id func_name args []).2.countP isUndoOpenEv =
      (execute_single get_func call_id func_name args []).2.countP isUndoCloseEv) ∧
    (∀ func e, get_func func_name = some func →
      func args = CallOutcome.raise e →
      (execute_single get_func call_id func_name args []).2 =
        [ExecEvent.undoOpen ("AIAgent_" ++ func_name),
         ExecEvent.invoke func_name args,
         ExecEvent.undoClose,
         ExecEvent.emitFinished call_id func_name
           (dumpResult ⟨false, "执行出错:\n" ++ format_exc e⟩)]) := by
  refine ⟨?_, ?_, ?_⟩
  · rw [execute_single_run]
  · rw [execute_single_run]
    rcases hf : get_func func_name with _ | func
    · simp [singleEvents, hf, isUndoOpenEv, isUndoCloseEv]
    · rcases ha : func args with v | e <;>
        simp [singleEvents, hf, ha, isUndoOpenEv, isUndoCloseEv, List.countP_cons]
  · intro func e hf ha
    rw [execute_single_run]
    simp [singleEvents, hf, ha]

/-- A concrete callable that always raises, used to instantiate C4. -/
def raisingFunc : Args → CallOutcome := fun _ =>
  CallOutcome.raise "RuntimeError: kaboom"

/-- A one-tool registry holding only the raising callable. -/
def regW4 : String → Option (Args → CallOutcome) := fun n =>
  if n = "boom_tool" then some raisingFunc else none

theorem C4_witness :
    regW4 "boom_tool" = some raisingFunc ∧
    raisingFunc [] = CallOutcome.raise "RuntimeError: kaboom" ∧
    (execute_single regW4 "call_7" "boom_tool" [] []).2 =
      [ExecEvent.undoOpen "AIAgent_boom_tool",
       ExecEvent.invoke "boom_tool" [],
       ExecEvent.undoClose,
       ExecEvent.emitFinished "call_7" "boom_tool"
         (dumpResult ⟨false, "执行出错:\n" ++ format_exc "RuntimeError: kaboom"⟩)] :=
  ⟨rfl, rfl,
    (C4_undo_chunk_and_isolation regW4 "call_7" "boom_tool" []).2.2
      raisingFunc "RuntimeError: kaboom" rfl rfl⟩

/-- The call ids reported via `execution_finished` in an event trace. -/
def finishedIds (evs : List ExecEvent) : List String :=
  evs.filterMap fun e =>
    match e with
    | ExecEvent.emitFinished cid _ _ => some cid
    | _ => none

theorem finishedIds_append (a b : List ExecEvent) :
    finishedIds (a ++ b) = finishedIds a ++ finishedIds b := by
  simp [finishedIds]

theorem finishedIds_loopEvents (get_func : String → Option (Args → CallOutcome))
    (tcs : List ToolCallReq) :
    finishedIds (loopEvents get_func tcs) =
      (tcs.filter fun tc => !(get_func tc.name).isSome).map ToolCallReq.id := by
  induction tcs with
  | nil => rfl
  | cons tc rest ih =>
      rw [loopEvents, List.filterMap_cons, List.filter_cons]
      by_cases hk : (get_func tc.name).isSome
      · rw [if_pos hk]
        have hnot : (!(get_func tc.name).isSome) = false := by rw [hk]; rfl
        rw [hnot]
        simp only [Bool.false_eq_true, if_false]
        exact ih
      · have hkf : (get_func tc.name).isSome = false :=
          Bool.not_eq_true _ ▸ (by simpa using hk)
        rw [hkf]
        simp only [Bool.false_eq_true, if_false, Bool.not_false, if_true]
        have : finishedIds (ExecEvent.emitFinished tc.id tc.name
            (dumpResult ⟨false, "未知工具: " ++ tc.name⟩) :: loopEvents get_func rest) =
            tc.id :: finishedIds (loopEvents get_func rest) := rfl
        rw [loopEvents] at this
        rw [this, List.map_cons]
        exact congrArg (fun l => tc.id :: l) ih

theorem finishedIds_singleEvents (get_func : String → Option (Args → CallOutcome))
    (cid fn : String) (args : Args) :
    finishedIds (singleEvents get_func cid fn args) = [cid] := by
  unfold singleEvents
  rcases hf : get_func fn with _ | func <;> rfl

theorem finishedIds_deferred (parseArgs : String → Option Args)
    (get_func : String → Option (Args → CallOutcome)) (tcs : List ToolCallReq) :
    finishedIds ((deferredQueue parseArgs get_func tcs).flatMap
        fun d => singleEvents get_func d.1 d.2.1 d.2.2) =
      (tcs.filter fun tc => (get_func tc.name).isSome).map ToolCallReq.id := by
  induction tcs with
  | nil => rfl
  | cons tc rest ih =>
      rw [deferredQueue, List.filterMap_cons, List.filter_cons]
      by_cases hk : (get_func tc.name).isSome
      · rw [if_pos hk, List.flatMap_cons, finishedIds_append,
          finishedIds_singleEvents, hk]
        simp only [if_true, List.map_cons, List.singleton_append]
        exact congrArg (fun l => tc.id :: l) ih
      · have hkf : (get_func tc.name).isSome = false :=
          Bool.not_eq_true _ ▸ (by simpa using hk)
        rw [if_neg hk, hkf]
        simp only [Bool.false_eq_true, if_false]
        exact ih

/-- C5: for every list of tool-call requests whose JSON parses, the
dispatcher produces exactly one execution result per requested call id (the
reported ids are a permutation of the requested ids); a call whose tool
name is not registered yields a failure result and no callable is ever
invoked for an unregistered name; and a call whose arguments string is
malformed JSON is invoked with empty arguments instead of aborting. -/
theorem C5_one_result_per_call (parseArgs : String → Option Args)
    (get_func : String → Option (Args → CallOutcome)) (tcs : List ToolCallReq) :
    (execute_tool_calls parseArgs get_func (some tcs) []).1 = Except.ok () ∧
    (finishedIds (execute_tool_calls parseArgs get_func (some tcs) []).2).Perm
      (tcs.map ToolCallReq.id) ∧
    (∀ n a, ExecEvent.invoke n a ∈
        (execute_tool_calls parseArgs get_func (some tcs) []).2 →
      (get_func n).isSome) ∧
    (∀ tc ∈ tcs, get_func tc.name = none →
      ExecEvent.emitFinished tc.id tc.name
          (dumpResult ⟨false, "未知工具: " ++ tc.name⟩) ∈
        (execute_tool_calls parseArgs get_func (some tcs) []).2) ∧
    (∀ tc ∈ tcs, (get_func tc.name).isSome → parseArgs tc.arguments = none →
      ExecEvent.invoke tc.name [] ∈
        (execute_tool_calls parseArgs get_func (some tcs) []).2) := by
  refine ⟨by rw [execute_tool_calls_run], ?_, ?_, ?_, ?_⟩
  · rw [execute_tool_calls_run]
    simp only [List.nil_append]
    rw [finishedIds_append, finishedIds_loopEvents, finishedIds_deferred]
    have hperm := List.filter_append_perm
      (fun tc : ToolCallReq => (get_func tc.name).isSome) tcs
    have hperm2 :
        ((tcs.filter fun tc => !(get_func tc.name).isSome) ++
          (tcs.filter fun tc => (get_func tc.name).isSome)).Perm tcs :=
      List.Perm.trans List.perm_append_comm hperm
    have := hperm2.map ToolCallReq.id
    simpa using this
  · intro n a hmem
    rw [execute_tool_calls_run] at hmem
    simp only [List.nil_append, List.mem_append] at hmem
    rcases hmem with hL | hD
    · exfalso
      rw [loopEvents] at hL
      rcases List.mem_filterMap.mp hL with ⟨tc, _, htc⟩
      by_cases hk : (get_func tc.name).isSome <;> simp [hk] at htc
    · rcases List.mem_flatMap.mp hD with ⟨d, hd, hev⟩
      rcases List.mem_filterMap.mp hd with ⟨tc, _, htc⟩
      by_cases hk : (get_func tc.name).isSome
      · rw [if_pos hk] at htc
        injection htc with htc'
        rcases hf : get_func d.2.1 with _ | func
        · rw [singleEvents, hf] at hev
          simp at hev
        · rw [singleEvents, hf] at hev
          rcases ha : func d.2.2 with v | e <;>
          · simp [ha] at hev
            rcases hev with ⟨hn, _⟩
            rw [hn]
            simp [hf]
      · rw [if_neg hk] at htc
        exact absurd htc (by simp)
  · intro tc htc hnone
    rw [execute_tool_calls_run]
    simp only [List.nil_append, List.mem_append]
    left
    rw [loopEvents]
    refine List.mem_filterMap.mpr ⟨tc, htc, ?_⟩
    simp [hnone]
  · intro tc htc hk hbad
    rw [execute_tool_calls_run]
    simp only [List.nil_append, List.mem_append]
    right
    refine List.mem_flatMap.mpr ⟨(tc.id, tc.name,
      (match parseArgs tc.arguments with | some a => a | none => [])), ?_, ?_⟩
    · rw [deferredQueue]
      exact List.mem_filterMap.mpr ⟨tc, htc, by rw [if_pos hk]⟩
    · rcases Option.isSome_iff_exists.mp hk with ⟨func, hf⟩
      rw [singleEvents]
      simp only [hf]
      rcases ha : func (match parseArgs tc.arguments with
        | some a => a | none => []) with v | e <;>
        simp [hbad]

/-- Argument decoder accepting only the literal empty-object string, used
to instantiate C5 with one malformed-arguments call. -/
def parseW5 : String → Option Args := fun s =>
  if s = "\x7b\x7d" then some [] else none

def okFunc : Args → CallOutcome := fun _ => CallOutcome.ret (PyVal.nonDict "done")

def regW5 : String → Option (Args → CallOutcome) := fun n =>
  if n = "set_keyframe" then some okFunc else none

def tcsW5 : List ToolCallReq :=
  [⟨"c1", "no_such_tool", "\x7b\x7d"⟩, ⟨"c2", "set_keyframe", "not json"⟩]

theorem C5_witness :
    regW5 "no_such_tool" = none ∧
    (regW5 "set_keyframe").isSome = true ∧
    parseW5 "not json" = none ∧
    (finishedIds (execute_tool_calls parseW5 regW5 (some tcsW5) []).2).Perm
      (tcsW5.map ToolCallReq.id) ∧
    ExecEvent.emitFinished "c1" "no_such_tool"
        (dumpResult ⟨false, "未知工具: " ++ "no_such_tool"⟩) ∈
      (execute_tool_calls parseW5 regW5 (some tcsW5) []).2 ∧
    ExecEvent.invoke "set_keyframe" [] ∈
      (execute_tool_calls parseW5 regW5 (some tcsW5) []).2 := by
  refine ⟨rfl, rfl, rfl,
    (C5_one_result_per_call parseW5 regW5 tcsW5).2.1, ?_, ?_⟩
  · exact (C5_one_result_per_call parseW5 regW5 tcsW5).2.2.2.1
      ⟨"c1", "no_such_tool", "\x7b\x7d"⟩ (by decide) rfl
  · exact (C5_one_result_per_call parseW5 regW5 tcsW5).2.2.2.2
      ⟨"c2", "set_keyframe", "not json"⟩ (by decide) rfl rfl

/- ===================================================================
   Part 6: llm_worker.py retry loop
   =================================================================== -/

/-- `_MAX_RETRIES = 3` -/
def MAX_RETRIES : Nat := 3

/-- `_RETRYABLE_HTTP_CODES = {429, 500, 502, 503}` -/
def RETRYABLE_HTTP_CODES : List Nat := [429, 500, 502, 503]

/-- `_RETRY_BACKOFF_BASE * (2 ** attempt)` in tenths of a second
(`1.5 * 2^attempt` seconds, exactly representable as `15 * 2^attempt`). -/
def backoff_tenths (attempt : Nat) : Nat := 15 * 2 ^ attempt

/-- `_HTTP_ERROR_HINTS` -/
def http_error_hint (code : Nat) : String :=
  if code = 401 then "API Key 无效或已过期，请在设置中检查。"
  else if code = 402 then "账户余额不足，请充值后重试。"
  else if code = 403 then "权限不足，可能是 API Key 没有该模型的访问权限。"
  else if code = 404 then "API 端点或模型名称不存在，请检查 Base URL 和模型名。"
  else if code = 429 then "请求频率过高，请稍后重试。"
  else if code = 500 then "服务端内部错误，请稍后重试。"
  else if code = 502 then "网关错误，服务暂时不可用。"
  else if code = 503 then "服务暂时不可用，请稍后重试。"
  else ""

/-- `_handle_http_error`: the user-visible message for a fatal/final HTTP
status (the reason/body details are network data, abstracted away; the
message always starts with the status code and never mentions a retry
count). -/
def handle_http_error_msg (code : Nat) : String :=
  "HTTP 错误 " ++ toString code ++
    (if http_error_hint code = "" then "" else "\n" ++ http_error_hint code)

/-- Response of one `urllib.request.urlopen` attempt. -/
inductive HttpResp where
  | ok
  | http (code : Nat)
  | net
deriving DecidableEq, Repr

/-- Observable actions of `LLMWorker.run`: each issued request (with or
without the `stream_options` include-usage hint) and each backoff sleep. -/
inductive WAction where
  | request (has_stream_options : Bool)
  | sleep (tenths : Nat)
deriving DecidableEq, Repr

/-- How `LLMWorker.run` terminates. -/
inductive WOutcome where
  | success
  | httpError (code : Nat) (msg : String)
  | netError (msg : String)
  | retriedFailed (msg : String)
  | noResult
deriving DecidableEq, Repr

/-- The `for attempt in range(_MAX_RETRIES)` loop of `LLMWorker.run`.
`resp k` is the response to the request issued in loop iteration `k` (one
`urlopen` per iteration); `hasSO` tracks whether `stream_options` is still
in the payload; `hasLastError` tracks `last_error`.  `fuel` equals
`MAX_RETRIES - attempt` at every call, so the recursion is structural. -/
def run_attempts (resp : Nat → HttpResp) : Nat → Nat → Bool → Bool →
    List WAction → (List WAction × WOutcome)
  | 0, _, _, hasLastError, acc =>
      (acc, if hasLastError then
        WOutcome.retriedFailed ("重试 " ++ toString MAX_RETRIES ++ " 次后仍然失败。")
      else WOutcome.noResult)
  | fuel + 1, attempt, hasSO, hasLastError, acc =>
      let acc := acc ++ [WAction.request hasSO]
      match resp attempt with
      | HttpResp.ok => (acc, WOutcome.success)
      | HttpResp.http code =>
          if code = 400 ∧ hasSO then
            run_attempts resp fuel (attempt + 1) false hasLastError acc
          else if code ∈ RETRYABLE_HTTP_CODES ∧ attempt < MAX_RETRIES - 1 then
            run_attempts resp fuel (attempt + 1) hasSO true
              (acc ++ [WAction.sleep (backoff_tenths attempt)])
          else
            (acc, WOutcome.httpError code (handle_http_error_msg code))
      | HttpResp.net =>
          if attempt < MAX_RETRIES - 1 then
            run_attempts resp fuel (attempt + 1) hasSO true
              (acc ++ [WAction.sleep (backoff_tenths attempt)])
          else
            (acc, WOutcome.netError
              ("网络连接错误 (重试 " ++ toString MAX_RETRIES ++ " 次后失败)"))

/-- `LLMWorker.run` with a given server behaviour; `stream` decides whether
the payload initially carries `stream_options = {"include_usage": True}`. -/
def llm_worker_run (resp : Nat → HttpResp) (stream : Bool) :
    List WAction × WOutcome :=
  run_attempts resp MAX_RETRIES 0 stream false []

def isRequestAction : WAction → Bool
  | WAction.request _ => true
  | _ => false

/-- Total number of requests ever issued is bounded by the attempt budget,
for any starting point of the loop. -/
theorem run_attempts_request_bound (resp : Nat → HttpResp) (fuel attempt : Nat)
    (hasSO hasLastError : Bool) (acc : List WAction) :
    ((run_attempts resp fuel attempt hasSO hasLastError acc).1.countP
        isRequestAction) ≤ acc.countP isRequestAction + fuel := by
  induction fuel generalizing attempt hasSO hasLastError acc with
  | zero => simp [run_attempts]
  | succ n ih =>
      rcases hr : resp attempt with _ | code | _
      · simp [run_attempts, hr, List.countP_append, isRequestAction]
      · simp only [run_attempts, hr]
        by_cases h400 : code = 400 ∧ hasSO = true
        · rw [if_pos h400]
          calc ((run_attempts resp n (attempt + 1) false hasLastError
                  (acc ++ [WAction.request hasSO])).1.countP isRequestAction)
              ≤ (acc ++ [WAction.request hasSO]).countP isRequestAction + n := ih _ _ _ _
            _ ≤ acc.countP isRequestAction + (n + 1) := by
                simp [List.countP_append, isRequestAction]
                omega
        · rw [if_neg h400]
          by_cases hretry : code ∈ RETRYABLE_HTTP_CODES ∧ attempt < MAX_RETRIES - 1
          · rw [if_pos hretry]
            calc ((run_attempts resp n (attempt + 1) hasSO true
                    ((acc ++ [WAction.request hasSO]) ++
                      [WAction.sleep (backoff_tenths attempt)])).1.countP
                  isRequestAction)
                ≤ ((acc ++ [WAction.request hasSO]) ++
                    [WAction.sleep (backoff_tenths attempt)]).countP isRequestAction
                    + n := ih _ _ _ _
              _ ≤ acc.countP isRequestAction + (n + 1) := by
                  simp [List.countP_append, isRequestAction]
                  omega
          · rw [if_neg hretry]
            simp [List.countP_append, isRequestAction]
      · simp only [run_attempts, hr]
        by_cases hn : attempt < MAX_RETRIES - 1
        · rw [if_pos hn]
          calc ((run_attempts resp n (attempt + 1) hasSO true
                  ((acc ++ [WAction.request hasSO]) ++
                    [WAction.sleep (backoff_tenths attempt)])).1.countP
                isRequestAction)
              ≤ ((acc ++ [WAction.request hasSO]) ++
                  [WAction.sleep (backoff_tenths attempt)]).countP isRequestAction
                  + n := ih _ _ _ _
            _ ≤ acc.countP isRequestAction + (n + 1) := by
                simp [List.countP_append, isRequestAction]
                omega
        · rw [if_neg hn]
          simp [List.countP_append, isRequestAction]

/-- Once the hint has been removed, no later request carries it. -/
theorem run_attempts_no_so (resp : Nat → HttpResp) (fuel attempt : Nat)
    (hasLastError : Bool) (acc : List WAction)
    (hacc : WAction.request true ∉ acc) :
    WAction.request true ∉
      (run_attempts resp fuel attempt false hasLastError acc).1 := by
  induction fuel generalizing attempt hasLastError acc with
  | zero => simpa [run_attempts] using hacc
  | succ n ih =>
      have hacc1 : WAction.request true ∉ acc ++ [WAction.request false] := by
        simp [hacc]
      rcases hr : resp attempt with _ | code | _
      · simp only [run_attempts, hr]
        simpa using hacc1
      · simp only [run_attempts, hr]
        by_cases h400 : code = 400 ∧ (false : Bool) = true
        · rcases h400 with ⟨_, hff⟩
          simp at hff
        · rw [if_neg h400]
          by_cases hretry : code ∈ RETRYABLE_HTTP_CODES ∧ attempt < MAX_RETRIES - 1
          · rw [if_pos hretry]
            apply ih
            simp [hacc]
          · rw [if_neg hretry]
            simpa using hacc1
      · simp only [run_attempts, hr]
        by_cases hn : attempt < MAX_RETRIES - 1
        · rw [if_pos hn]
          apply ih
          simp [hacc]
        · rw [if_neg hn]
          simpa using hacc1

/-- Every element the loop ever emits comes after the caller's accumulator. -/
theorem run_attempts_prefix (resp : Nat → HttpResp) (fuel attempt : Nat)
    (hasSO hasLastError : Bool) (acc : List WAction) :
    ∃ r, (run_attempts resp fuel attempt hasSO hasLastError acc).1 = acc ++ r := by
  induction fuel generalizing attempt hasSO hasLastError acc with
  | zero => exact ⟨[], by simp [run_attempts]⟩
  | succ n ih =>
      rcases hr : resp attempt with _ | code | _
      · exact ⟨[WAction.request hasSO], by simp [run_attempts, hr]⟩
      · simp only [run_attempts, hr]
        by_cases h400 : code = 400 ∧ hasSO = true
        · rw [if_pos h400]
          obtain ⟨r, hr2⟩ := ih (attempt + 1) false hasLastError
            (acc ++ [WAction.request hasSO])
          exact ⟨WAction.request hasSO :: r, by simp [hr2]⟩
        · rw [if_neg h400]
          by_cases hretry : code ∈ RETRYABLE_HTTP_CODES ∧ attempt < MAX_RETRIES - 1
          · rw [if_pos hretry]
            obtain ⟨r, hr2⟩ := ih (attempt + 1) hasSO true
              ((acc ++ [WAction.request hasSO]) ++
                [WAction.sleep (backoff_tenths attempt)])
            exact ⟨WAction.request hasSO :: WAction.sleep (backoff_tenths attempt) :: r,
              by simpa using hr2⟩
          · rw [if_neg hretry]
            exact ⟨[WAction.request hasSO], by simp⟩
      · simp only [run_attempts, hr]
        by_cases hn : attempt < MAX_RETRIES - 1
        · rw [if_pos hn]
          obtain ⟨r, hr2⟩ := ih (attempt + 1) hasSO true
            ((acc ++ [WAction.request hasSO]) ++
              [WAction.sleep (backoff_tenths attempt)])
          exact ⟨WAction.request hasSO :: WAction.sleep (backoff_tenths attempt) :: r,
            by simpa using hr2⟩
        · rw [if_neg hn]
          exact ⟨[WAction.request hasSO], by simp⟩

/-- Once the hint is out of the payload, the number of with-hint requests
in the trace never grows. -/
theorem run_attempts_count_so (resp : Nat → HttpResp) (fuel attempt : Nat)
    (hasLastError : Bool) (acc : List WAction) :
    ((run_attempts resp fuel attempt false hasLastError acc).1.count
        (WAction.request true)) = acc.count (WAction.request true) := by
  induction fuel generalizing attempt hasLastError acc with
  | zero => simp [run_attempts]
  | succ n ih =>
      have hone : (acc ++ [WAction.request false]).count (WAction.request true) =
          acc.count (WAction.request true) := by
        simp [List.count_append]
      rcases hr : resp attempt with _ | code | _
      · simp only [run_attempts, hr]
        exact hone
      · simp only [run_attempts, hr]
        by_cases h400 : code = 400 ∧ (false : Bool) = true
        · rcases h400 with ⟨_, hff⟩
          simp at hff
        · rw [if_neg h400]
          by_cases hretry : code ∈ RETRYABLE_HTTP_CODES ∧ attempt < MAX_RETRIES - 1
          · rw [if_pos hretry]
            rw [ih]
            simp [List.count_append]
          · rw [if_neg hretry]
            exact hone
      · simp only [run_attempts, hr]
        by_cases hn : attempt < MAX_RETRIES - 1
        · rw [if_pos hn]
          rw [ih]
          simp [List.count_append]
        · rw [if_neg hn]
          exact hone

/-- If at least one attempt remains, the next emitted action is a request
carrying the current hint flag. -/
theorem run_attempts_head (resp : Nat → HttpResp) (fuel attempt : Nat)
    (hasSO hasLastError : Bool) (acc : List WAction) (hfuel : fuel ≠ 0) :
    ∃ r, (run_attempts resp fuel attempt hasSO hasLastError acc).1 =
      acc ++ WAction.request hasSO :: r := by
  rcases fuel with _ | n
  · exact absurd rfl hfuel
  rcases hr : resp attempt with _ | code | _
  · exact ⟨[], by simp [run_attempts, hr]⟩
  · simp only [run_attempts, hr]
    by_cases h400 : code = 400 ∧ hasSO = true
    · rw [if_pos h400]
      obtain ⟨r, hr2⟩ := run_attempts_prefix resp n (attempt + 1) false hasLastError
        (acc ++ [WAction.request hasSO])
      exact ⟨r, by simpa using hr2⟩
    · rw [if_neg h400]
      by_cases hretry : code ∈ RETRYABLE_HTTP_CODES ∧ attempt < MAX_RETRIES - 1
      · rw [if_pos hretry]
        obtain ⟨r, hr2⟩ := run_attempts_prefix resp n (attempt + 1) hasSO true
          ((acc ++ [WAction.request hasSO]) ++
            [WAction.sleep (backoff_tenths attempt)])
        exact ⟨WAction.sleep (backoff_tenths attempt) :: r, by simpa using hr2⟩
      · rw [if_neg hretry]
        exact ⟨[], by simp⟩
  · simp only [run_attempts, hr]
    by_cases hn : attempt < MAX_RETRIES - 1
    · rw [if_pos hn]
      obtain ⟨r, hr2⟩ := run_attempts_prefix resp n (attempt + 1) hasSO true
        ((acc ++ [WAction.request hasSO]) ++
          [WAction.sleep (backoff_tenths attempt)])
      exact ⟨WAction.sleep (backoff_tenths attempt) :: r, by simpa using hr2⟩
    · rw [if_neg hn]
      exact ⟨[], by simp⟩

/-- C6 (amended): the 400-with-hint compatibility retry shares the
3-attempt budget.  When a streaming request is rejected with HTTP 400 while
the include-usage hint is present on the first attempt, the worker reissues
the request immediately with the hint removed and never sends the hint
again; but the total number of requests, the compatibility retry included,
never exceeds `MAX_RETRIES` (so the compat retry is counted against the
shared attempt budget). -/
theorem C6_compat_retry_shares_budget (resp : Nat → HttpResp)
    (h400 : resp 0 = HttpResp.http 400) :
    ((llm_worker_run resp true).1.countP isRequestAction ≤ MAX_RETRIES) ∧
    ∃ rest, (llm_worker_run resp true).1 =
        WAction.request true :: WAction.request false :: rest ∧
      WAction.request true ∉ rest := by
  have hstep : llm_worker_run resp true =
      run_attempts resp 2 1 false false [WAction.request true] := by
    rw [llm_worker_run]
    show run_attempts resp (2 + 1) 0 true false [] = _
    simp only [run_attempts, h400]
    rw [if_pos (by simp)]
    rfl
  constructor
  · have hb := run_attempts_request_bound resp MAX_RETRIES 0 true false []
    simpa [llm_worker_run] using hb
  · obtain ⟨r, hr⟩ := run_attempts_head resp 2 1 false false
      [WAction.request true] (by decide)
    have hcount := run_attempts_count_so resp 2 1 false [WAction.request true]
    rw [hr] at hcount
    refine ⟨r, by rw [hstep, hr]; rfl, ?_⟩
    intro hmem
    have hpos : 0 < r.count (WAction.request true) := List.count_pos_iff.mpr hmem
    simp [List.count_cons, List.count_singleton] at hcount
    omega

/-- Server that answers the first request with HTTP 400 and then succeeds. -/
def respW6 : Nat → HttpResp := fun k =>
  if k = 0 then HttpResp.http 400 else HttpResp.ok

theorem C6_witness :
    respW6 0 = HttpResp.http 400 ∧
    (llm_worker_run respW6 true).1.countP isRequestAction ≤ MAX_RETRIES ∧
    (llm_worker_run respW6 true).1 =
      [WAction.request true, WAction.request false] :=
  ⟨rfl, (C6_compat_retry_shares_budget respW6 rfl).1, by decide⟩

/-- C6 counterexample: the claim as stated is false.  Run (a): the provider
answers 429, 429, then 400-with-hint on the final attempt — the promised
immediate hint-removed retry never happens at all (no request without the
hint is ever issued) and the worker gives up with the retried-out message.
Run (b): a first-attempt 400 is compat-retried, but the whole run then
performs only `MAX_RETRIES = 3` requests in total — the compatibility retry
consumed one attempt of the shared backoff budget instead of being free. -/
theorem C6_counterexample :
    (llm_worker_run
        (fun k => if k = 0 then HttpResp.http 429
          else if k = 1 then HttpResp.http 429 else HttpResp.http 400) true =
      ([WAction.request true, WAction.sleep 15, WAction.request true,
        WAction.sleep 30, WAction.request true],
       WOutcome.retriedFailed ("重试 " ++ toString MAX_RETRIES ++ " 次后仍然失败。"))) ∧
    (llm_worker_run
        (fun k => if k = 0 then HttpResp.http 400 else HttpResp.http 429) true =
      ([WAction.request true, WAction.request false, WAction.sleep 30,
        WAction.request false],
       WOutcome.httpError 429 (handle_http_error_msg 429))) := by
  constructor
  · decide
  · decide

/-- Every element of `_RETRYABLE_HTTP_CODES` differs from 400. -/
theorem retryable_ne_400 (c : Nat) (h : c ∈ RETRYABLE_HTTP_CODES) : c ≠ 400 := by
  fin_cases h <;> decide

/-- C7 (amended): when every attempt receives a status from the code's
retryable set {429, 500, 502, 503}, the worker performs exactly 3 requests
separated by exponentially increasing sleeps (1.5 s then 3 s) and finally
surfaces the status-specific HTTP error message for the last status; the
"retried N times" texts are reserved for network-level errors and the
fall-through case, not for HTTP-status exhaustion. -/
theorem C7_retry_exhaustion (resp : Nat → HttpResp) (c0 c1 c2 : Nat)
    (h0 : resp 0 = HttpResp.http c0) (hm0 : c0 ∈ RETRYABLE_HTTP_CODES)
    (h1 : resp 1 = HttpResp.http c1) (hm1 : c1 ∈ RETRYABLE_HTTP_CODES)
    (h2 : resp 2 = HttpResp.http c2) (hm2 : c2 ∈ RETRYABLE_HTTP_CODES) :
    llm_worker_run resp true =
      ([WAction.request true, WAction.sleep (backoff_tenths 0),
        WAction.request true, WAction.sleep (backoff_tenths 1),
        WAction.request true],
       WOutcome.httpError c2 (handle_http_error_msg c2)) := by
  fin_cases hm0 <;> fin_cases hm1 <;> fin_cases hm2 <;>
    simp [llm_worker_run, run_attempts, h0, h1, h2, MAX_RETRIES,
      backoff_tenths, RETRYABLE_HTTP_CODES]

/-- C7 counterexample: the claim as stated is false.  With HTTP 504 (a
5xx-class status) on every attempt, the worker does not retry at all — 504
is not in `_RETRYABLE_HTTP_CODES` — and fails immediately after a single
request.  And with HTTP 429 on every attempt, the error finally surfaced is
the 429-specific message (code + rate-limit hint), which carries no
"retried N times" text — that text is only produced on the network-error
path. -/
theorem C7_counterexample :
    (llm_worker_run (fun _ => HttpResp.http 504) true =
      ([WAction.request true], WOutcome.httpError 504 (handle_http_error_msg 504))) ∧
    (llm_worker_run (fun _ => HttpResp.http 429) true =
      ([WAction.request true, WAction.sleep 15, WAction.request true,
        WAction.sleep 30, WAction.request true],
       WOutcome.httpError 429 (handle_http_error_msg 429))) ∧
    handle_http_error_msg 429 = "HTTP 错误 429\n请求频率过高，请稍后重试。" := by
  refine ⟨by decide, by decide, by decide⟩

theorem C7_witness :
    llm_worker_run (fun _ => HttpResp.http 500) true =
      ([WAction.request true, WAction.sleep (backoff_tenths 0),
        WAction.request true, WAction.sleep (backoff_tenths 1),
        WAction.request true],
       WOutcome.httpError 500 (handle_http_error_msg 500)) :=
  C7_retry_exhaustion (fun _ => HttpResp.http 500) 500 500 500
    rfl (by decide) rfl (by decide) rfl (by decide)

/- ===================================================================
   Part 7: llm_worker.py streaming tool-call accumulator
   =================================================================== -/

/-- One `tool_calls[]` fragment inside a streamed frame's
`choices[0].delta` (absent keys are `none`; `index` defaults to 0 upstream
when absent, so it is taken as given here). -/
structure TCDelta where
  index : Nat
  id : Option String
  ty : Option String
  name : Option String
  arguments : Option String
deriving DecidableEq, Repr

/-- One entry of `tool_calls_accum` (the `type` field is written `ty`). -/
structure AccEntry where
  id : String
  ty : String
  name : String
  arguments : String
deriving DecidableEq, Repr

/-- `idx in tool_calls_accum` / `tool_calls_accum[idx]` over the
insertion-ordered dict, modelled as an association list. -/
def accFind (accum : List (Nat × AccEntry)) (idx : Nat) : Option AccEntry :=
  (accum.find? fun kv => kv.1 == idx).map Prod.snd

/-- In-place mutation of `tool_calls_accum[idx]`. -/
def accUpdate (accum : List (Nat × AccEntry)) (idx : Nat)
    (f : AccEntry → AccEntry) : List (Nat × AccEntry) :=
  accum.map fun kv => if kv.1 = idx then (kv.1, f kv.2) else kv

/-- The per-fragment body of the `for tc_delta in tc_deltas` loop in
`LLMWorker._handle_stream`: create the entry on first sight of an index,
then overwrite `id` and append `name`/`arguments` fragments, each guarded
by Python truthiness (absent or empty strings are skipped). -/
def tool_calls_accum_step (accum : List (Nat × AccEntry)) (d : TCDelta) :
    List (Nat × AccEntry) :=
  let accum :=
    if (accFind accum d.index).isSome then accum
    else accum ++ [(d.index, ⟨d.id.getD "", d.ty.getD "function", "", ""⟩)]
  accUpdate accum d.index fun e =>
    let e1 := match d.id with
      | some s => if s ≠ "" then { e with id := s } else e
      | none => e
    let e2 := match d.name with
      | some s => if s ≠ "" then { e1 with name := e1.name ++ s } else e1
      | none => e1
    match d.arguments with
      | some s => if s ≠ "" then { e2 with arguments := e2.arguments ++ s } else e2
      | none => e2

/-- The accumulator state after a whole stream of fragments. -/
def accumulate_tool_calls (frames : List TCDelta) : List (Nat × AccEntry) :=
  frames.foldl tool_calls_accum_step []

/-- Concatenation of optional string pieces (an absent piece contributes
nothing, exactly like the skipped falsy fragments). -/
def concatPieces (ps : List (Option String)) : String :=
  ps.foldl (fun acc o => acc ++ o.getD "") ""

theorem concatPieces_from (ps : List (Option String)) (x : String) :
    ps.foldl (fun acc o => acc ++ o.getD "") x = x ++ concatPieces ps := by
  induction ps generalizing x with
  | nil => simp [concatPieces, String.append_empty]
  | cons o rest ih =>
      rw [concatPieces, List.foldl_cons, List.foldl_cons, ih, ih]
      rw [String.empty_append, String.append_assoc]

theorem concatPieces_cons (o : Option String) (ps : List (Option String)) :
    concatPieces (o :: ps) = o.getD "" ++ concatPieces ps := by
  rw [concatPieces, List.foldl_cons, concatPieces_from, String.empty_append]

/-- The streamed fragments of one tool call at index `idx`: the first frame
announces the call (carrying its `id`), later frames carry only pieces of
the name and of the JSON arguments string. -/
def fragDeltas (idx : Nat) (callId : String) :
    List (Option String × Option String) → List TCDelta
  | [] => []
  | p :: rest =>
      ⟨idx, some callId, some "function", p.1, p.2⟩ ::
        rest.map fun q => ⟨idx, none, none, q.1, q.2⟩

/-- The same call delivered whole in a single frame. -/
def unfragmentedDelta (idx : Nat) (callId name args : String) : List TCDelta :=
  [⟨idx, some callId, some "function", some name, some args⟩]

theorem accum_step_piece (idx : Nat) (e : AccEntry)
    (n a : Option String) :
    tool_calls_accum_step [(idx, e)] ⟨idx, none, none, n, a⟩ =
      [(idx, { e with
                name := e.name ++ n.getD "",
                arguments := e.arguments ++ a.getD "" })] := by
  rw [tool_calls_accum_step]
  have hfind : (accFind [(idx, e)] idx).isSome = true := by
    simp [accFind, List.find?]
  rw [if_pos hfind]
  rcases n with _ | s
  · rcases a with _ | t
    · simp [accUpdate, String.append_empty]
    · by_cases ht : t = ""
      · subst ht
        simp [accUpdate, String.append_empty]
      · simp [accUpdate, ht, String.append_empty]
  · rcases a with _ | t
    · by_cases hs : s = ""
      · subst hs
        simp [accUpdate, String.append_empty]
      · simp [accUpdate, hs, String.append_empty]
    · by_cases hs : s = ""
      · subst hs
        by_cases ht : t = ""
        · subst ht
          simp [accUpdate, String.append_empty]
        · simp [accUpdate, ht, String.append_empty]
      · by_cases ht : t = ""
        · subst ht
          simp [accUpdate, hs, String.append_empty]
        · simp [accUpdate, hs, ht]

theorem accum_tail (idx : Nat) (ps : List (Option String × Option String))
    (e : AccEntry) :
    List.foldl tool_calls_accum_step [(idx, e)]
        (ps.map fun q => (⟨idx, none, none, q.1, q.2⟩ : TCDelta)) =
      [(idx, { e with
                name := e.name ++ concatPieces (ps.map Prod.fst),
                arguments := e.arguments ++ concatPieces (ps.map Prod.snd) })] := by
  induction ps generalizing e with
  | nil =>
      simp [concatPieces, String.append_empty]
  | cons q rest ih =>
      rw [List.map_cons, List.foldl_cons, accum_step_piece, ih]
      rw [List.map_cons, List.map_cons, concatPieces_cons, concatPieces_cons]
      rw [String.append_assoc, String.append_assoc]

theorem accum_first (idx : Nat) (callId : String) (n a : Option String) :
    tool_calls_accum_step [] ⟨idx, some callId, some "function", n, a⟩ =
      [(idx, ⟨callId, "function", n.getD "", a.getD ""⟩)] := by
  rw [tool_calls_accum_step]
  have hfind : (accFind [] idx).isSome = false := by
    simp [accFind, List.find?]
  rw [if_neg (by simp [hfind])]
  rcases n with _ | s
  · rcases a with _ | t
    · by_cases hc : callId = "" <;> simp [accUpdate, hc]
    · by_cases hc : callId = ""
      · by_cases ht : t = "" <;> simp [accUpdate, hc, ht, String.empty_append]
      · by_cases ht : t = "" <;> simp [accUpdate, hc, ht, String.empty_append]
  · rcases a with _ | t
    · by_cases hc : callId = ""
      · by_cases hs : s = "" <;> simp [accUpdate, hc, hs, String.empty_append]
      · by_cases hs : s = "" <;> simp [accUpdate, hc, hs, String.empty_append]
    · by_cases hc : callId = ""
      · by_cases hs : s = "" <;> by_cases ht : t = "" <;>
          simp [accUpdate, hc, hs, ht, String.empty_append]
      · by_cases hs : s = "" <;> by_cases ht : t = "" <;>
          simp [accUpdate, hc, hs, ht, String.empty_append]

/-- C8: for every tool call and every way of splitting its function name
and its JSON-encoded arguments string into in-order fragments sharing the
same index, the streaming accumulator reassembles exactly the same name and
arguments string as an unfragmented delivery of the same call — hence the
same parsed argument object. -/
theorem C8_stream_reassembly (idx : Nat) (callId name args : String)
    (frags : List (Option String × Option String))
    (hne : frags ≠ [])
    (hn : concatPieces (frags.map Prod.fst) = name)
    (ha : concatPieces (frags.map Prod.snd) = args) :
    accumulate_tool_calls (fragDeltas idx callId frags) =
      [(idx, ⟨callId, "function", name, args⟩)] ∧
    accumulate_tool_calls (unfragmentedDelta idx callId name args) =
      [(idx, ⟨callId, "function", name, args⟩)] := by
  constructor
  · rcases frags with _ | ⟨p, rest⟩
    · exact absurd rfl hne
    · rw [fragDeltas, accumulate_tool_calls, List.foldl_cons, accum_first,
        accum_tail]
      rw [List.map_cons, concatPieces_cons] at hn
      rw [List.map_cons, concatPieces_cons] at ha
      rw [← hn, ← ha]
  · rw [unfragmentedDelta, accumulate_tool_calls, List.foldl_cons, accum_first]
    simp

theorem C8_witness :
    ([(some "zero_out", some "\x7b\"obj"), (none, some "\x7d")] :
        List (Option String × Option String)) ≠ [] ∧
    concatPieces ([(some "zero_out", some "\x7b\"obj"),
      (none, some "\x7d")].map Prod.fst) = "zero_out" ∧
    concatPieces ([(some "zero_out", some "\x7b\"obj"),
      (none, some "\x7d")].map Prod.snd) = "\x7b\"obj\x7d" ∧
    accumulate_tool_calls (fragDeltas 0 "call_1"
        [(some "zero_out", some "\x7b\"obj"), (none, some "\x7d")]) =
      [(0, ⟨"call_1", "function", "zero_out", "\x7b\"obj\x7d"⟩)] ∧
    accumulate_tool_calls (unfragmentedDelta 0 "call_1" "zero_out" "\x7b\"obj\x7d") =
      [(0, ⟨"call_1", "function", "zero_out", "\x7b\"obj\x7d"⟩)] := by
  refine ⟨by decide, by decide, by decide, ?_, ?_⟩
  · exact (C8_stream_reassembly 0 "call_1" "zero_out" "\x7b\"obj\x7d"
      [(some "zero_out", some "\x7b\"obj"), (none, some "\x7d")]
      (by decide) (by decide) (by decide)).1
  · exact (C8_stream_reassembly 0 "call_1" "zero_out" "\x7b\"obj\x7d"
      [(some "zero_out", some "\x7b\"obj"), (none, some "\x7d")]
      (by decide) (by decide) (by decide)).2

/- ===================================================================
   Part 8: response_cache.py and history_manager.find_similar_qa
   =================================================================== -/

/-- `CACHE_TTL = 7 * 24 * 3600` seconds. -/
def CACHE_TTL : Nat := 7 * 24 * 3600

/-- `MAX_CACHE_SIZE = 200` -/
def MAX_CACHE_SIZE : Nat := 200

/-- One value of the cache dict. -/
structure CacheEntry where
  normalized : String
  query : String
  response : String
  timestamp : Nat
  last_access : Nat
  hit_count : Nat
deriving DecidableEq, Repr

/-- The in-memory cache dict (`_memory_cache`), key → entry in insertion
order.  Timestamps are whole seconds (`time.time()` floats in the source;
nothing verified below depends on sub-second precision). -/
abbrev RCache : Type := List (String × CacheEntry)

/-- The character class kept by `re.sub(r'[^\w一-鿿]+', '', text)`
(`\w` with `re.UNICODE`; approximated by alphanumerics plus underscore plus
the explicit CJK range — the claims below do not depend on the exact
Unicode word-character table). -/
def is_word_char (c : Char) : Bool :=
  c.isAlphanum || c = '_' || (0x4e00 ≤ c.toNat && c.toNat ≤ 0x9fff)

/-- Python `str.strip()` (standard library), at the character level. -/
def py_strip_chars (cs : List Char) : List Char :=
  ((cs.dropWhile Char.isWhitespace).reverse.dropWhile Char.isWhitespace).reverse

/-- `normalize_query`: strip, lowercase, drop punctuation/whitespace
(Python `str.lower()` is the standard library's per-character lowering). -/
def normalize_query (q : String) : String :=
  String.mk (((py_strip_chars q.data).map Char.toLower).filter is_word_char)

/-- `cache.get(key)` -/
def dictGet (c : RCache) (k : String) : Option CacheEntry :=
  (c.find? fun kv => kv.1 == k).map Prod.snd

/-- `cache[key] = entry` (in-place update keeps the original dict position;
a new key is appended). -/
def dictSet (c : RCache) (k : String) (v : CacheEntry) : RCache :=
  if (dictGet c k).isSome then
    c.map fun kv => if kv.1 = k then (k, v) else kv
  else c ++ [(k, v)]

/-- `del cache[key]` -/
def dictRemove (c : RCache) (k : String) : RCache :=
  c.filter fun kv => !(kv.1 == k)

/-- `_evict_expired`: drop entries older than the TTL. -/
def evict_expired (c : RCache) (now : Nat) : RCache :=
  c.filter fun kv =>
    !(decide (now - kv.2.timestamp > CACHE_TTL))

/-- `cache[k].get("last_access", 0)` as used by the LRU sort key. -/
def last_access_of (c : RCache) (k : String) : Nat :=
  ((dictGet c k).map CacheEntry.last_access).getD 0

/-- `_evict_lru`: when over capacity, delete the oldest-accessed keys
(Python's stable `sorted` over the keys by `last_access`). -/
def evict_lru (c : RCache) : RCache :=
  if c.length ≤ MAX_CACHE_SIZE then c
  else c.filter fun kv =>
    !((((c.map Prod.fst).mergeSort fun k1 k2 =>
          decide (last_access_of c k1 ≤ last_access_of c k2)).take
        (c.length - MAX_CACHE_SIZE)).contains kv.1)

/-- `store(query, response)` at time `now`; `h` abstracts the
`hashlib.md5(...)[:16]` key digest (standard library). -/
def cache_store (h : String → String) (cache : RCache) (query response : String)
    (now : Nat) : RCache :=
  if normalize_query query = "" then cache
  else if response = "" ∨ response.length < 10 then cache
  else
    evict_lru (evict_expired
      (dictSet cache (h (normalize_query query))
        ⟨normalize_query query, String.mk (py_strip_chars query.data), response, now, now, 0⟩) now)

/-- `lookup(query)` at time `now`; returns the result together with the
mutated cache.  `findSimilar` is the layer-2 fuzzy history search
(`HistoryManager.find_similar_qa`, modelled below). -/
def cache_lookup (h : String → String) (findSimilar : String → Option String)
    (cache : RCache) (query : String) (now : Nat) : Option String × RCache :=
  if normalize_query query = "" then (none, cache)
  else
    match dictGet cache (h (normalize_query query)) with
    | some entry =>
        if now - entry.timestamp > CACHE_TTL then
          (findSimilar query, dictRemove cache (h (normalize_query query)))
        else if entry.normalized = normalize_query query then
          (some entry.response,
            dictSet cache (h (normalize_query query))
              { entry with last_access := now, hit_count := entry.hit_count + 1 })
        else (findSimilar query, cache)
    | none => (findSimilar query, cache)

/-- One record of the durable history log, as read by `find_similar_qa`. -/
structure HistoryRecord where
  user_input : String
  assistant_reply : String
  tools_used : List String
  is_shortcut : Bool
deriving DecidableEq, Repr

/-- `HistoryManager._normalize` (same regex as `normalize_query`,
duplicated in the source). -/
def hm_normalize (text : String) : String :=
  String.mk (((py_strip_chars text.data).map Char.toLower).filter is_word_char)

/-- `HistoryManager.find_similar_qa`.  `simScore` abstracts
`difflib.SequenceMatcher(None, a, b).ratio()` (standard library); the
float thresholds 0.3 / 3.0 / `SIMILARITY_THRESHOLD = 0.75` are the
rationals 3/10, 3, 3/4. -/
def find_similar_qa (simScore : String → String → ℚ)
    (records : List HistoryRecord) (query : String) : Option String :=
  if query = "" then none
  else
    let normalized := hm_normalize query
    if normalized = "" then none
    else
      let best := records.reverse.foldl
        (fun (best : ℚ × Option String) r =>
          if r.tools_used ≠ [] then best
          else if r.is_shortcut then best
          else
            let past_normalized := hm_normalize r.user_input
            if past_normalized = "" then best
            else
              let len_ratio : ℚ :=
                (normalized.length : ℚ) / (max past_normalized.length 1 : ℚ)
              if len_ratio < 3/10 ∨ len_ratio > 3 then best
              else
                let score := simScore normalized past_normalized
                if score > best.1 then (score, some r.assistant_reply) else best)
        (0, none)
      if 3/4 ≤ best.1 ∧ best.2.getD "" ≠ "" then best.2 else none

theorem dictGet_mem {c : RCache} {k : String} {v : CacheEntry}
    (h : dictGet c k = some v) : (k, v) ∈ c := by
  rw [dictGet] at h
  rcases hf : c.find? fun kv => kv.1 == k with _ | kv
  · rw [hf] at h
    simp at h
  · rw [hf] at h
    have hmem := List.mem_of_find?_eq_some hf
    have hkey := List.find?_some hf
    simp only [Option.map_some'] at h
    injection h with h2
    have hk : kv.1 = k := by simpa using hkey
    have : kv = (k, v) := by
      rcases kv with ⟨k0, v0⟩
      simp at hk h2
      simp [hk, h2]
    rw [← this]
    exact hmem

theorem dictGet_isSome_of_mem_keys {c : RCache} {k : String}
    (h : k ∈ c.map Prod.fst) : (dictGet c k).isSome = true := by
  rcases List.mem_map.mp h with ⟨kv, hkv, hfst⟩
  rw [dictGet, Option.isSome_map']
  rw [List.find?_isSome]
  exact ⟨kv, hkv, by simp [hfst]⟩

theorem dictGet_dictSet_self (c : RCache) (k : String) (v : CacheEntry) :
    dictGet (dictSet c k v) k = some v := by
  rw [dictSet]
  by_cases hs : (dictGet c k).isSome
  · rw [if_pos hs]
    induction c with
    | nil => simp [dictGet] at hs
    | cons kv rest ih =>
        by_cases hk : kv.1 = k
        · simp [dictGet, List.find?, hk]
        · have hs2 : (dictGet rest k).isSome = true := by
            rw [dictGet] at hs ⊢
            rw [List.find?] at hs
            have : (kv.1 == k) = false := by simp [hk]
            rw [this] at hs
            exact hs
          have := ih hs2
          simp only [List.map_cons]
          rw [dictGet, List.find?]
          have hcond : ((if kv.1 = k then (k, v) else kv).1 == k) = false := by
            simp [hk]
          rw [hcond]
          rw [dictGet] at this
          exact this
  · rw [if_neg hs]
    rw [dictGet, List.find?_append]
    have hnone : (c.find? fun kv => kv.1 == k) = none := by
      rcases hf : c.find? fun kv => kv.1 == k with _ | kv
      · exact hf
      · exfalso
        apply hs
        rw [dictGet, hf]
        simp
    rw [hnone]
    simp [List.find?]

theorem mem_dictSet_of_ne {c : RCache} {k : String} {v : CacheEntry}
    {kv : String × CacheEntry} (h : kv ∈ dictSet c k v) (hne : kv.1 ≠ k) :
    kv ∈ c := by
  rw [dictSet] at h
  by_cases hs : (dictGet c k).isSome
  · rw [if_pos hs] at h
    rcases List.mem_map.mp h with ⟨kv0, hkv0, hf⟩
    by_cases h0 : kv0.1 = k
    · rw [if_pos h0] at hf
      rw [← hf] at hne
      simp at hne
    · rw [if_neg h0] at hf
      rw [← hf]
      exact hkv0
  · rw [if_neg hs] at h
    rcases List.mem_append.mp h with h1 | h2
    · exact h1
    · simp at h2
      rw [h2] at hne
      simp at hne

theorem keys_dictSet_nodup (c : RCache) (k : String) (v : CacheEntry)
    (h : (c.map Prod.fst).Nodup) : ((dictSet c k v).map Prod.fst).Nodup := by
  rw [dictSet]
  by_cases hs : (dictGet c k).isSome
  · rw [if_pos hs]
    have : (c.map fun kv => if kv.1 = k then (k, v) else kv).map Prod.fst =
        c.map Prod.fst := by
      rw [List.map_map]
      apply List.map_congr_left
      intro kv _
      by_cases hk : kv.1 = k
      · simp [Function.comp, hk]
      · simp [Function.comp, hk]
    rw [this]
    exact h
  · rw [if_neg hs]
    rw [List.map_append]
    have hk : k ∉ c.map Prod.fst := by
      intro hmem
      exact hs (dictGet_isSome_of_mem_keys hmem)
    simp [List.nodup_append, h, hk]

theorem dictGet_filter {c : RCache} {p : String × CacheEntry → Bool}
    {k : String} {v : CacheEntry}
    (h : dictGet c k = some v) (hp : p (k, v) = true) :
    dictGet (c.filter p) k = some v := by
  induction c with
  | nil => simp [dictGet] at h
  | cons kv rest ih =>
      by_cases hk : kv.1 = k
      · have hv : kv = (k, v) := by
          rw [dictGet, List.find?] at h
          have hcond : (kv.1 == k) = true := by simp [hk]
          rw [hcond] at h
          simp only [Option.map_some'] at h
          injection h with h2
          rcases kv with ⟨k0, v0⟩
          simp at hk h2
          simp [hk, h2]
        rw [hv, List.filter_cons, if_pos hp]
        simp [dictGet, List.find?]
      · rw [dictGet, List.find?] at h
        have hcond : (kv.1 == k) = false := by simp [hk]
        rw [hcond] at h
        have ihres := ih h
        rw [List.filter_cons]
        by_cases hpkv : p kv = true
        · rw [if_pos hpkv]
          rw [dictGet, List.find?, hcond]
          exact ihres
        · rw [if_neg hpkv]
          exact ihres

theorem dictSet_length_le (c : RCache) (k : String) (v : CacheEntry) :
    (dictSet c k v).length ≤ c.length + 1 := by
  rw [dictSet]
  by_cases hs : (dictGet c k).isSome
  · rw [if_pos hs]
    simp
  · rw [if_neg hs]
    simp

/-- The entry with the strictly newest `last_access` survives a single
LRU eviction pass over a dict that exceeded capacity by at most one. -/
theorem dictGet_evict_lru (c : RCache) (k : String) (v : CacheEntry)
    (hget : dictGet c k = some v)
    (hnodup : (c.map Prod.fst).Nodup)
    (hlen : c.length ≤ MAX_CACHE_SIZE + 1)
    (hmax : ∀ kv ∈ c, kv.1 ≠ k → kv.2.last_access < v.last_access) :
    dictGet (evict_lru c) k = some v := by
  rw [evict_lru]
  by_cases hle : c.length ≤ MAX_CACHE_SIZE
  · rw [if_pos hle]
    exact hget
  · rw [if_neg hle]
    have hlen1 : c.length = MAX_CACHE_SIZE + 1 := by omega
    have htake : c.length - MAX_CACHE_SIZE = 1 := by omega
    apply dictGet_filter hget
    rw [htake]
    have hnot : k ∉ (((c.map Prod.fst).mergeSort fun k1 k2 =>
        decide (last_access_of c k1 ≤ last_access_of c k2)).take 1) := by
      rcases hsorted : ((c.map Prod.fst).mergeSort fun k1 k2 =>
          decide (last_access_of c k1 ≤ last_access_of c k2)) with _ | ⟨k0, tail⟩
      · simp
      · rw [show (k0 :: tail).take 1 = [k0] from rfl]
        intro hmemk
        have hk0 : k0 = k := by
          rcases List.mem_singleton.mp hmemk with h
          exact h.symm
        subst hk0
        have hlenkeys : (c.map Prod.fst).length = MAX_CACHE_SIZE + 1 := by
          simp [hlen1]
        obtain ⟨k', hk'mem, hk'ne⟩ :
            ∃ k', k' ∈ c.map Prod.fst ∧ k' ≠ k0 := by
          rcases hks : c.map Prod.fst with _ | ⟨a, _ | ⟨b, rest⟩⟩
          · rw [hks] at hlenkeys
            simp [MAX_CACHE_SIZE] at hlenkeys
          · rw [hks] at hlenkeys
            simp [MAX_CACHE_SIZE] at hlenkeys
          · rw [hks] at hnodup
            have hab : a ≠ b := by
              rcases List.nodup_cons.mp hnodup with ⟨ha, _⟩
              intro hcontra
              exact ha (by rw [hcontra]; exact List.mem_cons_self _ _)
            by_cases hak : a = k0
            · refine ⟨b, ?_, ?_⟩
              · exact List.mem_cons_of_mem _ (List.mem_cons_self _ _)
              · intro hc
                apply hab
                rw [hak, hc]
            · refine ⟨a, ?_, hak⟩
              exact List.mem_cons_self _ _
        have htrans : ∀ a b c' : String,
            (fun k1 k2 => decide (last_access_of c k1 ≤ last_access_of c k2)) a b = true →
            (fun k1 k2 => decide (last_access_of c k1 ≤ last_access_of c k2)) b c' = true →
            (fun k1 k2 => decide (last_access_of c k1 ≤ last_access_of c k2)) a c' = true := by
          intro a b c' h1 h2
          simp at h1 h2 ⊢
          omega
        have htotal : ∀ a b : String,
            ((fun k1 k2 => decide (last_access_of c k1 ≤ last_access_of c k2)) a b ||
             (fun k1 k2 => decide (last_access_of c k1 ≤ last_access_of c k2)) b a) = true := by
          intro a b
          simp
          omega
        have hpair := List.sorted_mergeSort htrans htotal (c.map Prod.fst)
        rw [hsorted] at hpair
        rcases List.pairwise_cons.mp hpair with ⟨hhead, _⟩
        have hperm := List.mergeSort_perm (c.map Prod.fst)
          fun k1 k2 => decide (last_access_of c k1 ≤ last_access_of c k2)
        have hk'sorted : k' ∈ k0 :: tail := by
          rw [← hsorted]
          exact (hperm.mem_iff).mpr hk'mem
        have hk'tail : k' ∈ tail := by
          rcases List.mem_cons.mp hk'sorted with h | h
          · exact absurd h hk'ne
          · exact h
        have hlek := hhead k' hk'tail
        simp only [decide_eq_true_eq] at hlek
        have h1 : last_access_of c k0 = v.last_access := by
          rw [last_access_of, hget]
          rfl
        have hk'some := dictGet_isSome_of_mem_keys hk'mem
        obtain ⟨v', hv'⟩ := Option.isSome_iff_exists.mp hk'some
        have hmemv' := dictGet_mem hv'
        have hlt := hmax (k', v') hmemv' hk'ne
        have h2 : last_access_of c k' = v'.last_access := by
          rw [last_access_of, hv']
          rfl
        rw [h1, h2] at hlek
        simp only at hlt
        omega
    simp [hnot]

/-- C9 (amended): in one session, `store(q, r)` followed by `lookup(q)`
before TTL expiry returns `r`, provided the pair is cache-eligible
(non-empty normalized query, response of at least 10 characters) and the
cache is in its reachable shape (duplicate-free keys, within capacity,
every existing entry last accessed strictly before the store); and
`lookup` on a query whose normalized form never appeared in the cache
returns a miss provided the fuzzy history layer also finds nothing. -/
theorem C9_cache_round_trip (h : String → String)
    (findSimilar : String → Option String) (cache : RCache)
    (q r : String) (now t2 : Nat)
    (hnorm : normalize_query q ≠ "")
    (hlen10 : 10 ≤ r.length)
    (hkeys : (cache.map Prod.fst).Nodup)
    (hsize : cache.length ≤ MAX_CACHE_SIZE)
    (hfresh : ∀ kv ∈ cache, kv.2.last_access < now)
    (httl : t2 - now ≤ CACHE_TTL) :
    (cache_lookup h findSimilar (cache_store h cache q r now) q t2).1 = some r ∧
    (∀ q' now', (∀ kv ∈ cache, kv.2.normalized ≠ normalize_query q') →
      findSimilar q' = none →
      (cache_lookup h findSimilar cache q' now').1 = none) := by
  constructor
  · have hrne : ¬(r = "" ∨ r.length < 10) := by
      rintro (rfl | hlt)
      · simp at hlen10
      · omega
    rw [cache_store, if_neg hnorm, if_neg hrne]
    have hget1 := dictGet_dictSet_self cache (h (normalize_query q))
      ⟨normalize_query q, String.mk (py_strip_chars q.data), r, now, now, 0⟩
    have hget2 : dictGet (evict_expired
        (dictSet cache (h (normalize_query q))
          ⟨normalize_query q, String.mk (py_strip_chars q.data), r, now, now, 0⟩) now)
        (h (normalize_query q)) =
        some ⟨normalize_query q, String.mk (py_strip_chars q.data), r, now, now, 0⟩ := by
      apply dictGet_filter hget1
      simp
    have hnodup2 : ((evict_expired
        (dictSet cache (h (normalize_query q))
          ⟨normalize_query q, String.mk (py_strip_chars q.data), r, now, now, 0⟩) now).map Prod.fst).Nodup := by
      refine List.Nodup.sublist ?_
        (keys_dictSet_nodup cache (h (normalize_query q))
          ⟨normalize_query q, String.mk (py_strip_chars q.data), r, now, now, 0⟩ hkeys)
      exact List.Sublist.map Prod.fst (List.filter_sublist _)
    have hlen2 : (evict_expired
        (dictSet cache (h (normalize_query q))
          ⟨normalize_query q, String.mk (py_strip_chars q.data), r, now, now, 0⟩) now).length ≤
        MAX_CACHE_SIZE + 1 := by
      calc (evict_expired (dictSet cache (h (normalize_query q))
              ⟨normalize_query q, String.mk (py_strip_chars q.data), r, now, now, 0⟩) now).length
          ≤ (dictSet cache (h (normalize_query q))
              ⟨normalize_query q, String.mk (py_strip_chars q.data), r, now, now, 0⟩).length :=
            List.length_filter_le _ _
        _ ≤ cache.length + 1 := dictSet_length_le _ _ _
        _ ≤ MAX_CACHE_SIZE + 1 := by omega
    have hmax2 : ∀ kv ∈ evict_expired
        (dictSet cache (h (normalize_query q))
          ⟨normalize_query q, String.mk (py_strip_chars q.data), r, now, now, 0⟩) now,
        kv.1 ≠ h (normalize_query q) →
        kv.2.last_access <
          (⟨normalize_query q, String.mk (py_strip_chars q.data), r, now, now, 0⟩ : CacheEntry).last_access := by
      intro kv hkv hne
      have hkv1 : kv ∈ dictSet cache (h (normalize_query q))
          ⟨normalize_query q, String.mk (py_strip_chars q.data), r, now, now, 0⟩ :=
        List.mem_of_mem_filter hkv
      have hkv2 : kv ∈ cache := mem_dictSet_of_ne hkv1 hne
      exact hfresh kv hkv2
    have hget3 := dictGet_evict_lru _ _ _ hget2 hnodup2 hlen2 hmax2
    rw [cache_lookup, if_neg hnorm]
    simp only [hget3]
    have hc1 : ¬(t2 - (⟨normalize_query q, String.mk (py_strip_chars q.data), r, now, now, 0⟩ :
        CacheEntry).timestamp > CACHE_TTL) := by
      show ¬(t2 - now > CACHE_TTL)
      omega
    rw [if_neg hc1]
    simp
  · intro q' now' hnever hfs
    rw [cache_lookup]
    by_cases hn' : normalize_query q' = ""
    · rw [if_pos hn']
    · rw [if_neg hn']
      rcases hg : dictGet cache (h (normalize_query q')) with _ | entry
      · simp only [hg, hfs]
      · simp only [hg]
        have hmem := dictGet_mem hg
        have hne := hnever _ hmem
        by_cases httl' : now' - entry.timestamp > CACHE_TTL
        · rw [if_pos httl', hfs]
        · rw [if_neg httl', if_neg (by simpa using hne), hfs]

/-- A stand-in for the md5-prefix key digest (any function works: `lookup`
re-checks the stored normalized text, so the digest is never trusted). -/
def idHashW : String → String := fun s => s

/-- A similarity score standing in for `difflib.SequenceMatcher.ratio`,
scoring 4/5 for the distinct-but-close pair used below (the real difflib
ratio of the two normalized strings is likewise above the 0.75
threshold). -/
def simW9 : String → String → ℚ := fun a b => if a = b then 1 else 4/5

def recsW9 : List HistoryRecord :=
  [⟨"maya如何导出fbx文件", "使用File菜单的Export All即可导出FBX", [], false⟩]

/-- C9 counterexample: the claim as stated is false on two counts.
First, `store(q, r)` with a response shorter than 10 characters stores
nothing (the eligibility check rejects it), so the immediate `lookup(q)`
misses instead of returning `r`.  Second, `lookup` on a query whose
normalized form never appeared in the cache need not return a miss: the
layer-2 fuzzy history search can return a past reply for a merely similar
query. -/
theorem C9_counterexample :
    (cache_lookup idHashW (fun _ => none)
        (cache_store idHashW [] "你好" "short" 1000) "你好" 1000).1 = none ∧
    (none : Option String) ≠ some "short" ∧
    (cache_lookup idHashW (find_similar_qa simW9 recsW9) []
        "maya怎么导出fbx文件" 0).1 = some "使用File菜单的Export All即可导出FBX" ∧
    some "使用File菜单的Export All即可导出FBX" ≠ (none : Option String) := by
  refine ⟨by decide, by decide, ?_, by decide⟩
  have hstep : (cache_lookup idHashW (find_similar_qa simW9 recsW9) []
      "maya怎么导出fbx文件" 0).1 =
      find_similar_qa simW9 recsW9 "maya怎么导出fbx文件" := by
    rw [cache_lookup, if_neg (by decide)]
    rfl
  rw [hstep]
  have hq : ¬(("maya怎么导出fbx文件" : String) = "") := by decide
  have hn1 : hm_normalize "maya怎么导出fbx文件" = "maya怎么导出fbx文件" := by decide
  have hn2 : hm_normalize "maya如何导出fbx文件" = "maya如何导出fbx文件" := by decide
  have hpn2 : ¬(("maya如何导出fbx文件" : String) = "") := by decide
  have hne : ¬(("maya怎么导出fbx文件" : String) = "maya如何导出fbx文件") := by decide
  have hlen : ("maya怎么导出fbx文件" : String).length = 13 := by decide
  have hlen2 : ("maya如何导出fbx文件" : String).length = 13 := by decide
  have hrne : ¬(("使用File菜单的Export All即可导出FBX" : String) = "") := by decide
  rw [find_similar_qa, if_neg hq, if_neg (by rw [hn1]; exact hq)]
  simp only [recsW9, List.reverse_cons, List.reverse_nil, List.nil_append,
    List.foldl_cons, List.foldl_nil]
  norm_num [hn1, hn2, hpn2, hne, hlen, hlen2, hrne, simW9]

theorem C9_witness :
    normalize_query "maya怎么导出fbx" ≠ "" ∧
    10 ≤ ("使用File菜单导出即可完成FBX" : String).length ∧
    (cache_lookup idHashW (fun _ => none)
        (cache_store idHashW [] "maya怎么导出fbx" "使用File菜单导出即可完成FBX" 100)
        "maya怎么导出fbx" 200).1 = some "使用File菜单导出即可完成FBX" :=
  ⟨by decide, by decide,
    (C9_cache_round_trip idHashW (fun _ => none) [] "maya怎么导出fbx"
      "使用File菜单导出即可完成FBX" 100 200 (by decide) (by decide) (by decide)
      (by decide) (by simp) (by decide)).1⟩

/- ===================================================================
   Part 9: chat_widget.py conversation controller
   =================================================================== -/

/-- `MAX_TOOL_ROUNDS = 10` -/
def MAX_TOOL_ROUNDS : Nat := 10

/-- `json.dumps({"success": False, "message": "用户拒绝执行此操作。"}, ...)` -/
def denialResultContent : String :=
  "\x7b\"success\": false, \"message\": \"用户拒绝执行此操作。\"\x7d"

/-- The controller state of `ChatWidget`: the conversation list, the
tool-round counter, the expected/pending tool-result bookkeeping, the
streaming buffers, plus: `dispatched` — the call ids whose deferred
executions have been queued on the Maya main thread and have not fired yet
(the `executeDeferred` queue, which a user stop cannot cancel); `awaiting`
— a live worker has not yet delivered its one response signal (the model
assumes a cancelled worker emits nothing further and that a finished
worker's signals are processed before a new request starts); `busy` — the
`_set_busy` flag gating the input field; `tc_none` — whether the current
request was issued with `tool_choice="none"` (`force_text_only`);
`notices` — how many cap-reached termination notices have been shown. -/
structure CtrlState where
  conversation : List Msg
  tool_round : Nat
  expected : List String
  pending : List (String × String)
  dispatched : List String
  awaiting : Bool
  busy : Bool
  streaming_active : Bool
  streaming_content : String
  tc_none : Bool
  notices : Nat
deriving DecidableEq, Repr

def ctrlInit : CtrlState := ⟨[], 0, [], [], [], false, false, false, "", false, 0⟩

/-- `_start_llm_request(force_text_only)`. -/
def startLLMRequest (s : CtrlState) (force_text_only : Bool) : CtrlState :=
  { s with streaming_content := "", streaming_active := false,
           busy := true, awaiting := true, tc_none := force_text_only }

/-- `_on_send`, layer-3 path (no shortcut, no cache hit, API key set):
append the user message, reset the round counter, start the request. -/
def on_send_llm (s : CtrlState) (text : String) : CtrlState :=
  startLLMRequest
    { s with conversation := s.conversation ++ [Msg.userMsg text],
             tool_round := 0 } false

/-- `_on_send`, layer-2 cache-hit path (the layer-1 shortcut path appends
the same two message shapes): user message plus a plain assistant reply,
no request started. -/
def on_send_cached (s : CtrlState) (text reply : String) : CtrlState :=
  { s with conversation :=
      s.conversation ++ [Msg.userMsg text, Msg.assistantText reply none] }

/-- `_on_response_chunk`. -/
def on_chunk (s : CtrlState) (t : String) : CtrlState :=
  { s with streaming_active := true,
           streaming_content := s.streaming_content ++ t }

/-- `_on_response` followed by the worker's `finished` signal
(`_on_worker_done`). -/
def on_response (s : CtrlState) (text : String) (reasoning : Option String) :
    CtrlState :=
  if text ≠ "" then
    { s with conversation := s.conversation ++ [Msg.assistantText text reasoning],
             streaming_active := false, streaming_content := "",
             awaiting := false,
             busy := if s.expected.isEmpty then false else s.busy }
  else
    { s with awaiting := false,
             busy := if s.expected.isEmpty then false else s.busy }

/-- `_on_error` followed by `_on_worker_done`. -/
def on_error (s : CtrlState) : CtrlState :=
  { s with awaiting := false,
           busy := if s.expected.isEmpty then false else s.busy }

/-- `_on_tool_calls`: append the assistant message carrying `tool_calls`;
on denial synthesize one failure tool message per call id and go idle; on
approval record the expected ids, clear the results map, and dispatch every
call (the executor queues them all — unknown-tool failures are emitted
synchronously, which the `toolDone` event covers as an immediate firing). -/
def on_tool_calls (s : CtrlState) (calls : List ToolCall) (text : String)
    (reasoning : Option String) (approved : Bool) : CtrlState :=
  if approved then
    { s with awaiting := false,
             conversation := s.conversation ++
               [Msg.assistantToolCalls (if text = "" then none else some text)
                 calls reasoning],
             expected := calls.map ToolCall.id, pending := [],
             dispatched := s.dispatched ++ calls.map ToolCall.id }
  else
    { s with awaiting := false,
             conversation := s.conversation ++
               [Msg.assistantToolCalls (if text = "" then none else some text)
                 calls reasoning] ++
               (calls.map fun tc => Msg.toolMsg tc.id denialResultContent),
             busy := false }

/-- `self._pending_tool_results[call_id] = (func_name, result_json)`. -/
def insertPending (p : List (String × String)) (cid result : String) :
    List (String × String) :=
  if (p.find? fun kv => kv.1 == cid).isSome then
    p.map fun kv => if kv.1 = cid then (cid, result) else kv
  else p ++ [(cid, result)]

def pendingLookup (p : List (String × String)) (cid : String) : Option String :=
  (p.find? fun kv => kv.1 == cid).map Prod.snd

/-- `_on_all_tools_done`: append one tool message per expected id, clear
the bookkeeping, advance the round; at the cap show the termination notice
and stop, otherwise issue the next request (text-only on the last permitted
round). -/
def all_tools_done (s : CtrlState) : CtrlState :=
  if s.tool_round + 1 ≥ MAX_TOOL_ROUNDS then
    { s with
      conversation := s.conversation ++
        s.expected.map fun cid =>
          Msg.toolMsg cid ((pendingLookup s.pending cid).getD ""),
      pending := [], expected := [], tool_round := s.tool_round + 1,
      busy := false, notices := s.notices + 1 }
  else
    { s with
      conversation := s.conversation ++
        s.expected.map fun cid =>
          Msg.toolMsg cid ((pendingLookup s.pending cid).getD ""),
      pending := [], expected := [], tool_round := s.tool_round + 1,
      streaming_content := "", streaming_active := false,
      busy := true, awaiting := true,
      tc_none := decide (MAX_TOOL_ROUNDS - 1 ≤ s.tool_round + 1) }

/-- `_on_tool_executed`: collect the result; when every expected id has
one, run `_on_all_tools_done` (note: with `_expected_tool_ids` empty the
`all(...)` check is vacuously true). -/
def on_tool_done (s : CtrlState) (cid result : String) : CtrlState :=
  if s.expected.all
      (fun tid => (pendingLookup (insertPending s.pending cid result) tid).isSome) then
    all_tools_done { s with dispatched := s.dispatched.erase cid,
                            pending := insertPending s.pending cid result }
  else
    { s with dispatched := s.dispatched.erase cid,
             pending := insertPending s.pending cid result }

/-- `_on_stop`: cancel the worker, preserve any partially streamed text as
an assistant message, clear the tool-expectation state, go idle.  The
already-queued deferred tool executions are not cancelled. -/
def on_stop (s : CtrlState) : CtrlState :=
  if s.streaming_active ∧ s.streaming_content ≠ "" then
    { s with
      conversation :=
        s.conversation ++ [Msg.assistantText s.streaming_content none],
      streaming_active := false, streaming_content := "",
      awaiting := false, expected := [], pending := [], busy := false }
  else
    { s with awaiting := false, expected := [], pending := [], busy := false }

/-- The controller's externally triggered events (one per Qt handler). -/
inductive Ev where
  | sendLLM (text : String)
  | sendCached (text reply : String)
  | chunk (t : String)
  | respText (text : String) (reasoning : Option String)
  | respTools (calls : List ToolCall) (text : String)
      (reasoning : Option String) (approved : Bool)
  | toolDone (cid result : String)
  | stopGen
  | llmError
deriving DecidableEq, Repr

/-- One controller transition; `none` means the event cannot fire in this
state (disabled input while busy, no live worker, no such queued deferred
execution, hidden stop button). -/
def stepCtrl (s : CtrlState) : Ev → Option CtrlState
  | Ev.sendLLM t =>
      if ¬s.busy ∧ t ≠ "" then some (on_send_llm s t) else none
  | Ev.sendCached t r =>
      if ¬s.busy ∧ t ≠ "" then some (on_send_cached s t r) else none
  | Ev.chunk t =>
      if s.awaiting ∧ t ≠ "" then some (on_chunk s t) else none
  | Ev.respText t r =>
      if s.awaiting then some (on_response s t r) else none
  | Ev.respTools calls t r ap =>
      if s.awaiting ∧ calls ≠ [] then some (on_tool_calls s calls t r ap)
      else none
  | Ev.toolDone cid res =>
      if cid ∈ s.dispatched then some (on_tool_done s cid res) else none
  | Ev.stopGen => if s.busy then some (on_stop s) else none
  | Ev.llmError => if s.awaiting then some (on_error s) else none

/-- Reachability of the controller along a concrete event trace. -/
def runTrace (evs : List Ev) : Option CtrlState :=
  evs.foldl (fun os e => os.bind fun s => stepCtrl s e) (some ctrlInit)

/-- Side conditions under which the amended invariants are proved: a tool
batch carries duplicate-free call ids that are fresh for the conversation
(the provider contract the code relies on), and the user does not press
stop while tool results are still outstanding (`_on_stop` clears
`_expected_tool_ids` without synthesizing results — see the
counterexamples below for what happens without this condition). -/
def SafeEv (s : CtrlState) : Ev → Prop
  | Ev.respTools calls _ _ _ =>
      (calls.map ToolCall.id).Nodup ∧
        ∀ tc ∈ calls, tc.id ∉ callIds s.conversation
  | Ev.stopGen => s.expected = []
  | _ => True

/-- States reachable from the fresh widget along safe traces. -/
inductive SafeReach : CtrlState → Prop where
  | init : SafeReach ctrlInit
  | step {s s2 : CtrlState} {e : Ev} : SafeReach s → SafeEv s e →
      stepCtrl s e = some s2 → SafeReach s2

theorem mem_callIds_of_mem (conv : List Msg) (m : Msg) (c : ToolCall)
    (hm : m ∈ conv) (hc : c ∈ m.tool_calls) : c.id ∈ callIds conv := by
  unfold callIds
  exact List.mem_flatMap.mpr ⟨m, hm, List.mem_map_of_mem ToolCall.id hc⟩

/-- Appending a plain (non-tool, no `tool_calls`) message preserves the
pairing invariant. -/
theorem pairedOk_append_plain (conv : List Msg) (m : Msg)
    (h1 : pairedOk conv = true) (hm : m.tool_calls = [])
    (hrole : m.role ≠ Role.tool) : pairedOk (conv ++ [m]) = true :=
  pairedOk_append conv [m] h1 (pairedOk_plain m hm)
    (fun _ _ c _ => countId_nonTool_zero m c.id hrole)

/-- A full round block (assistant `tool_calls` message plus its results)
appended after a paired prefix with fresh ids stays paired. -/
theorem paired_after_round (pre : List Msg) (asst : Msg) (ids : List String)
    (f : String → String) (hrole : asst.role = Role.assistant)
    (hids : asst.tool_calls.map ToolCall.id = ids) (hnd : ids.Nodup)
    (hfresh : ∀ i ∈ ids, i ∉ callIds pre) (hpre : pairedOk pre = true) :
    pairedOk ((pre ++ [asst]) ++ toolResultsFor ids f) = true := by
  rw [List.append_assoc]
  exact pairedOk_append pre ([asst] ++ toolResultsFor ids f) hpre
    (pairedOk_round_block asst ids f hids hnd)
    (fun m hm c hc => countId_round_block_zero asst ids f c.id hrole
      (fun hin => hfresh c.id hin (mem_callIds_of_mem pre m c hm hc)))

theorem pendingLookup_isSome_mem (p : List (String × String)) (cid : String)
    (h : (pendingLookup p cid).isSome = true) : cid ∈ p.map Prod.fst := by
  induction p with
  | nil => simp [pendingLookup] at h
  | cons kv rest ih =>
      cases hkv : (kv.1 == cid) with
      | true =>
          simp [List.map_cons]
          exact Or.inl (eq_of_beq hkv).symm
      | false =>
          rw [pendingLookup] at h
          simp only [List.find?, hkv] at h
          exact List.mem_cons_of_mem _ (ih h)

theorem insertPending_keys (p : List (String × String)) (cid r : String) :
    (insertPending p cid r).map Prod.fst =
      if (pendingLookup p cid).isSome = true then p.map Prod.fst
      else p.map Prod.fst ++ [cid] := by
  have hps : (pendingLookup p cid).isSome =
      (p.find? fun kv => kv.1 == cid).isSome := by
    simp [pendingLookup]
  by_cases h : ((p.find? fun kv => kv.1 == cid).isSome : Bool) = true
  · rw [insertPending, if_pos h, if_pos (by rw [hps]; exact h), List.map_map]
    refine List.map_congr_left ?_
    intro kv _
    by_cases hk : kv.1 = cid
    · simp [hk]
    · simp [hk]
  · rw [insertPending, if_neg h, if_neg (by rw [hps]; exact h),
      List.map_append]
    rfl

/-- If a duplicate-free list is a permutation of `d ++ k` and lies entirely
inside `k`, then `d` is empty.  (This is how "every expected id has a
collected result" forces the deferred queue for this batch to be drained.) -/
theorem perm_drained (e d k : List String) (hperm : e.Perm (d ++ k))
    (hnd : e.Nodup) (hsub : ∀ x ∈ e, x ∈ k) : d = [] := by
  cases d with
  | nil => rfl
  | cons x d2 =>
      exfalso
      have hx : x ∈ e := hperm.mem_iff.mpr (by simp)
      have h1 : e.count x = 1 := List.count_eq_one_of_mem hnd hx
      have h2 : e.count x = (x :: d2).count x + k.count x := by
        rw [hperm.count_eq, List.count_append]
      have h3 : 0 < (x :: d2).count x := by simp [List.count_cons]
      have h4 : 0 < k.count x := List.count_pos_iff.mpr (hsub x hx)
      omega

theorem not_mem_keys_of_perm (e d k : List String) (cid : String)
    (hperm : e.Perm (d ++ k)) (hnd : e.Nodup) (hcid : cid ∈ d) : cid ∉ k := by
  have h2 : (d ++ k).Nodup := hperm.nodup hnd
  exact (List.nodup_append.mp h2).2.2 hcid

theorem perm_erase_insert (e d k : List String) (cid : String)
    (hperm : e.Perm (d ++ k)) (hcid : cid ∈ d) :
    e.Perm (d.erase cid ++ (k ++ [cid])) := by
  have hd : d.Perm (cid :: d.erase cid) := List.perm_cons_erase hcid
  refine hperm.trans ((hd.append_right k).trans ?_)
  rw [List.cons_append, ← List.append_assoc]
  exact (List.perm_append_singleton cid (d.erase cid ++ k)).symm

/-- The inductive invariant of the controller along safe traces: the round
counter never exceeds the cap; while a worker is awaited there are no
outstanding tool ids, the widget is busy, the round is below the cap, and
`tool_choice = "none"` exactly on the last permitted round; with no
outstanding ids the conversation is paired and the bookkeeping is empty;
with outstanding ids the conversation is a paired prefix plus the assistant
`tool_calls` message, whose duplicate-free fresh ids are split between the
deferred queue and the collected results. -/
structure CtrlInv (s : CtrlState) : Prop where
  round_le : s.tool_round ≤ MAX_TOOL_ROUNDS
  await_idle : s.awaiting = true → s.expected = []
  await_busy : s.awaiting = true → s.busy = true
  await_round : s.awaiting = true → s.tool_round < MAX_TOOL_ROUNDS
  await_tc : s.awaiting = true →
    s.tc_none = decide (s.tool_round = MAX_TOOL_ROUNDS - 1)
  idle_paired : s.expected = [] → pairedOk s.conversation = true
  idle_disp : s.expected = [] → s.dispatched = []
  idle_pend : s.expected = [] → s.pending = []
  exp_busy : s.expected ≠ [] → s.busy = true
  exp_round : s.expected ≠ [] → s.tool_round < MAX_TOOL_ROUNDS
  exp_shape : s.expected ≠ [] → ∃ pre asst,
    s.conversation = pre ++ [asst] ∧ asst.role = Role.assistant ∧
    asst.tool_calls.map ToolCall.id = s.expected ∧
    s.expected.Nodup ∧ (∀ i ∈ s.expected, i ∉ callIds pre) ∧
    pairedOk pre = true ∧
    s.expected.Perm (s.dispatched ++ s.pending.map Prod.fst)

theorem ctrlInv_init : CtrlInv ctrlInit :=
  ⟨by decide, fun _ => rfl, fun h => Bool.noConfusion h, fun _ => by decide,
    fun _ => by decide, fun _ => rfl, fun _ => rfl, fun _ => rfl,
    fun h => absurd rfl h, fun h => absurd rfl h, fun h => absurd rfl h⟩

theorem stepInv_send_llm (s : CtrlState) (t : String) (hinv : CtrlInv s)
    (hbusy : s.busy = false) : CtrlInv (on_send_llm s t) := by
  have hexp : s.expected = [] := by
    by_contra h
    rw [hinv.exp_busy h] at hbusy
    exact Bool.noConfusion hbusy
  refine ⟨?_, ?_, ?_, ?_, ?_, ?_, ?_, ?_, ?_, ?_, ?_⟩
  · show (0:Nat) ≤ MAX_TOOL_ROUNDS
    decide
  · intro _; exact hexp
  · intro _; rfl
  · intro _
    show (0:Nat) < MAX_TOOL_ROUNDS
    decide
  · intro _
    show false = decide ((0:Nat) = MAX_TOOL_ROUNDS - 1)
    decide
  · intro _
    show pairedOk (s.conversation ++ [Msg.userMsg t]) = true
    exact pairedOk_append_plain _ _ (hinv.idle_paired hexp) rfl
      (by show Role.user ≠ Role.tool; decide)
  · intro _; exact hinv.idle_disp hexp
  · intro _; exact hinv.idle_pend hexp
  · intro h; exact absurd hexp h
  · intro h; exact absurd hexp h
  · intro h; exact absurd hexp h

theorem stepInv_send_cached (s : CtrlState) (t r : String) (hinv : CtrlInv s)
    (hbusy : s.busy = false) : CtrlInv (on_send_cached s t r) := by
  have hexp : s.expected = [] := by
    by_contra h
    rw [hinv.exp_busy h] at hbusy
    exact Bool.noConfusion hbusy
  have hawaitf : s.awaiting = false := by
    cases ha : s.awaiting
    · rfl
    · rw [hinv.await_busy ha] at hbusy
      exact Bool.noConfusion hbusy
  refine ⟨hinv.round_le, ?_, ?_, ?_, ?_, ?_, ?_, ?_, ?_, ?_, ?_⟩
  · intro ha
    have h2 : s.awaiting = true := ha
    rw [hawaitf] at h2
    exact Bool.noConfusion h2
  · intro ha
    have h2 : s.awaiting = true := ha
    rw [hawaitf] at h2
    exact Bool.noConfusion h2
  · intro ha
    have h2 : s.awaiting = true := ha
    rw [hawaitf] at h2
    exact Bool.noConfusion h2
  · intro ha
    have h2 : s.awaiting = true := ha
    rw [hawaitf] at h2
    exact Bool.noConfusion h2
  · intro _
    show pairedOk
      (s.conversation ++ [Msg.userMsg t, Msg.assistantText r none]) = true
    rw [show s.conversation ++ [Msg.userMsg t, Msg.assistantText r none] =
        (s.conversation ++ [Msg.userMsg t]) ++ [Msg.assistantText r none] by
      rw [List.append_assoc]; rfl]
    exact pairedOk_append_plain _ _
      (pairedOk_append_plain _ _ (hinv.idle_paired hexp) rfl
        (by show Role.user ≠ Role.tool; decide))
      rfl (by show Role.assistant ≠ Role.tool; decide)
  · intro _; exact hinv.idle_disp hexp
  · intro _; exact hinv.idle_pend hexp
  · intro h; exact absurd hexp h
  · intro h; exact absurd hexp h
  · intro h; exact absurd hexp h

theorem stepInv_chunk (s : CtrlState) (t : String) (hinv : CtrlInv s) :
    CtrlInv (on_chunk s t) :=
  ⟨hinv.round_le, hinv.await_idle, hinv.await_busy, hinv.await_round,
    hinv.await_tc, hinv.idle_paired, hinv.idle_disp, hinv.idle_pend,
    hinv.exp_busy, hinv.exp_round, hinv.exp_shape⟩

theorem stepInv_response (s : CtrlState) (text : String)
    (reasoning : Option String) (hinv : CtrlInv s)
    (hawait : s.awaiting = true) : CtrlInv (on_response s text reasoning) := by
  have hexp : s.expected = [] := hinv.await_idle hawait
  rw [on_response]
  by_cases ht : text ≠ ""
  · rw [if_pos ht]
    refine ⟨hinv.round_le, ?_, ?_, ?_, ?_, ?_, ?_, ?_, ?_, ?_, ?_⟩
    · intro ha; exact Bool.noConfusion ha
    · intro ha; exact Bool.noConfusion ha
    · intro ha; exact Bool.noConfusion ha
    · intro ha; exact Bool.noConfusion ha
    · intro _
      show pairedOk
        (s.conversation ++ [Msg.assistantText text reasoning]) = true
      exact pairedOk_append_plain _ _ (hinv.idle_paired hexp) rfl
        (by show Role.assistant ≠ Role.tool; decide)
    · intro _; exact hinv.idle_disp hexp
    · intro _; exact hinv.idle_pend hexp
    · intro h; exact absurd hexp h
    · intro h; exact absurd hexp h
    · intro h; exact absurd hexp h
  · rw [if_neg ht]
    refine ⟨hinv.round_le, ?_, ?_, ?_, ?_, ?_, ?_, ?_, ?_, ?_, ?_⟩
    · intro ha; exact Bool.noConfusion ha
    · intro ha; exact Bool.noConfusion ha
    · intro ha; exact Bool.noConfusion ha
    · intro ha; exact Bool.noConfusion ha
    · intro _; exact hinv.idle_paired hexp
    · intro _; exact hinv.idle_disp hexp
    · intro _; exact hinv.idle_pend hexp
    · intro h; exact absurd hexp h
    · intro h; exact absurd hexp h
    · intro h; exact absurd hexp h

theorem stepInv_error (s : CtrlState) (hinv : CtrlInv s)
    (hawait : s.awaiting = true) : CtrlInv (on_error s) := by
  have hexp : s.expected = [] := hinv.await_idle hawait
  refine ⟨hinv.round_le, ?_, ?_, ?_, ?_, ?_, ?_, ?_, ?_, ?_, ?_⟩
  · intro ha; exact Bool.noConfusion ha
  · intro ha; exact Bool.noConfusion ha
  · intro ha; exact Bool.noConfusion ha
  · intro ha; exact Bool.noConfusion ha
  · intro _; exact hinv.idle_paired hexp
  · intro _; exact hinv.idle_disp hexp
  · intro _; exact hinv.idle_pend hexp
  · intro h; exact absurd hexp h
  · intro h; exact absurd hexp h
  · intro h; exact absurd hexp h

theorem stepInv_stop (s : CtrlState) (hinv : CtrlInv s)
    (hexp : s.expected = []) : CtrlInv (on_stop s) := by
  rw [on_stop]
  by_cases hst : s.streaming_active = true ∧ s.streaming_content ≠ ""
  · rw [if_pos hst]
    refine ⟨hinv.round_le, ?_, ?_, ?_, ?_, ?_, ?_, ?_, ?_, ?_, ?_⟩
    · intro ha; exact Bool.noConfusion ha
    · intro ha; exact Bool.noConfusion ha
    · intro ha; exact Bool.noConfusion ha
    · intro ha; exact Bool.noConfusion ha
    · intro _
      show pairedOk
        (s.conversation ++ [Msg.assistantText s.streaming_content none]) = true
      exact pairedOk_append_plain _ _ (hinv.idle_paired hexp) rfl
        (by show Role.assistant ≠ Role.tool; decide)
    · intro _; exact hinv.idle_disp hexp
    · intro _; rfl
    · intro h; exact absurd rfl h
    · intro h; exact absurd rfl h
    · intro h; exact absurd rfl h
  · rw [if_neg hst]
    refine ⟨hinv.round_le, ?_, ?_, ?_, ?_, ?_, ?_, ?_, ?_, ?_, ?_⟩
    · intro ha; exact Bool.noConfusion ha
    · intro ha; exact Bool.noConfusion ha
    · intro ha; exact Bool.noConfusion ha
    · intro ha; exact Bool.noConfusion ha
    · intro _; exact hinv.idle_paired hexp
    · intro _; exact hinv.idle_disp hexp
    · intro _; rfl
    · intro h; exact absurd rfl h
    · intro h; exact absurd rfl h
    · intro h; exact absurd rfl h

theorem stepInv_tool_calls (s : CtrlState) (calls : List ToolCall)
    (text : String) (reasoning : Option String) (approved : Bool)
    (hinv : CtrlInv s) (hawait : s.awaiting = true) (hcalls : calls ≠ [])
    (hnd : (calls.map ToolCall.id).Nodup)
    (hfresh : ∀ tc ∈ calls, tc.id ∉ callIds s.conversation) :
    CtrlInv (on_tool_calls s calls text reasoning approved) := by
  have hexp : s.expected = [] := hinv.await_idle hawait
  have hbusy : s.busy = true := hinv.await_busy hawait
  have hround : s.tool_round < MAX_TOOL_ROUNDS := hinv.await_round hawait
  have hpair : pairedOk s.conversation = true := hinv.idle_paired hexp
  have hfreshIds : ∀ i ∈ calls.map ToolCall.id, i ∉ callIds s.conversation := by
    intro i hi
    obtain ⟨tc, htc, rfl⟩ := List.mem_map.mp hi
    exact hfresh tc htc
  rw [on_tool_calls]
  by_cases hap : approved = true
  · rw [if_pos hap]
    refine ⟨hinv.round_le, ?_, ?_, ?_, ?_, ?_, ?_, ?_, ?_, ?_, ?_⟩
    · intro ha; exact Bool.noConfusion ha
    · intro ha; exact Bool.noConfusion ha
    · intro ha; exact Bool.noConfusion ha
    · intro ha; exact Bool.noConfusion ha
    · intro h
      exact absurd h (by
        intro h2
        exact hcalls (List.map_eq_nil_iff.mp h2))
    · intro h
      exact absurd h (by
        intro h2
        exact hcalls (List.map_eq_nil_iff.mp h2))
    · intro h
      exact absurd h (by
        intro h2
        exact hcalls (List.map_eq_nil_iff.mp h2))
    · intro _; exact hbusy
    · intro _; exact hround
    · intro _
      refine ⟨s.conversation,
        Msg.assistantToolCalls (if text = "" then none else some text)
          calls reasoning, rfl, rfl, rfl, hnd, hfreshIds, hpair, ?_⟩
      show (calls.map ToolCall.id).Perm
        ((s.dispatched ++ calls.map ToolCall.id) ++
          List.map Prod.fst ([] : List (String × String)))
      rw [hinv.idle_disp hexp]
      simp
  · rw [if_neg hap]
    refine ⟨hinv.round_le, ?_, ?_, ?_, ?_, ?_, ?_, ?_, ?_, ?_, ?_⟩
    · intro ha; exact Bool.noConfusion ha
    · intro ha; exact Bool.noConfusion ha
    · intro ha; exact Bool.noConfusion ha
    · intro ha; exact Bool.noConfusion ha
    · intro _
      show pairedOk
        ((s.conversation ++
          [Msg.assistantToolCalls (if text = "" then none else some text)
            calls reasoning]) ++
          (calls.map fun tc => Msg.toolMsg tc.id denialResultContent)) = true
      rw [show (calls.map fun tc => Msg.toolMsg tc.id denialResultContent) =
          toolResultsFor (calls.map ToolCall.id)
            (fun _ => denialResultContent) by
        rw [toolResultsFor, List.map_map]; rfl]
      exact paired_after_round s.conversation _ (calls.map ToolCall.id)
        (fun _ => denialResultContent) rfl rfl hnd hfreshIds hpair
    · intro _; exact hinv.idle_disp hexp
    · intro _; exact hinv.idle_pend hexp
    · intro h; exact absurd hexp h
    · intro h; exact absurd hexp h
    · intro h; exact absurd hexp h

theorem stepInv_all_done (s : CtrlState) (pre : List Msg) (asst : Msg)
    (hconv : s.conversation = pre ++ [asst])
    (hrole : asst.role = Role.assistant)
    (hids : asst.tool_calls.map ToolCall.id = s.expected)
    (hnd : s.expected.Nodup)
    (hfresh : ∀ i ∈ s.expected, i ∉ callIds pre)
    (hpre : pairedOk pre = true) (hdisp : s.dispatched = [])
    (hawaitf : s.awaiting = false)
    (hround : s.tool_round < MAX_TOOL_ROUNDS) :
    CtrlInv (all_tools_done s) := by
  have hpaired : pairedOk (s.conversation ++
      s.expected.map fun cid =>
        Msg.toolMsg cid ((pendingLookup s.pending cid).getD "")) = true := by
    rw [hconv]
    exact paired_after_round pre asst s.expected
      (fun cid => (pendingLookup s.pending cid).getD "")
      hrole hids hnd hfresh hpre
  rw [all_tools_done]
  by_cases hcap : s.tool_round + 1 ≥ MAX_TOOL_ROUNDS
  · rw [if_pos hcap]
    refine ⟨?_, ?_, ?_, ?_, ?_, ?_, ?_, ?_, ?_, ?_, ?_⟩
    · show s.tool_round + 1 ≤ MAX_TOOL_ROUNDS
      omega
    · intro _; rfl
    · intro ha
      have h2 : s.awaiting = true := ha
      rw [hawaitf] at h2
      exact Bool.noConfusion h2
    · intro ha
      have h2 : s.awaiting = true := ha
      rw [hawaitf] at h2
      exact Bool.noConfusion h2
    · intro ha
      have h2 : s.awaiting = true := ha
      rw [hawaitf] at h2
      exact Bool.noConfusion h2
    · intro _; exact hpaired
    · intro _; exact hdisp
    · intro _; rfl
    · intro h; exact absurd rfl h
    · intro h; exact absurd rfl h
    · intro h; exact absurd rfl h
  · rw [if_neg hcap]
    refine ⟨?_, ?_, ?_, ?_, ?_, ?_, ?_, ?_, ?_, ?_, ?_⟩
    · show s.tool_round + 1 ≤ MAX_TOOL_ROUNDS
      omega
    · intro _; rfl
    · intro _; rfl
    · intro _
      show s.tool_round + 1 < MAX_TOOL_ROUNDS
      omega
    · intro _
      show decide (MAX_TOOL_ROUNDS - 1 ≤ s.tool_round + 1) =
        decide (s.tool_round + 1 = MAX_TOOL_ROUNDS - 1)
      exact decide_eq_decide.mpr (by omega)
    · intro _; exact hpaired
    · intro _; exact hdisp
    · intro _; rfl
    · intro h; exact absurd rfl h
    · intro h; exact absurd rfl h
    · intro h; exact absurd rfl h

theorem stepInv_tool_done (s : CtrlState) (cid r : String) (hinv : CtrlInv s)
    (hcid : cid ∈ s.dispatched) : CtrlInv (on_tool_done s cid r) := by
  have hexp : s.expected ≠ [] := by
    intro h0
    rw [hinv.idle_disp h0] at hcid
    exact absurd hcid (List.not_mem_nil cid)
  obtain ⟨pre, asst, hconv, hrole, hids, hnd, hfresh, hpre, hperm⟩ :=
    hinv.exp_shape hexp
  have hbusy := hinv.exp_busy hexp
  have hround := hinv.exp_round hexp
  have hawaitf : s.awaiting = false := by
    cases ha : s.awaiting
    · rfl
    · exact absurd (hinv.await_idle ha) hexp
  have hnotk : cid ∉ s.pending.map Prod.fst :=
    not_mem_keys_of_perm s.expected s.dispatched (s.pending.map Prod.fst) cid
      hperm hnd hcid
  have hkeys : (insertPending s.pending cid r).map Prod.fst =
      s.pending.map Prod.fst ++ [cid] := by
    rw [insertPending_keys,
      if_neg (fun h => hnotk (pendingLookup_isSome_mem s.pending cid h))]
  have hperm2 : s.expected.Perm (s.dispatched.erase cid ++
      (insertPending s.pending cid r).map Prod.fst) := by
    rw [hkeys]
    exact perm_erase_insert s.expected s.dispatched (s.pending.map Prod.fst)
      cid hperm hcid
  rw [on_tool_done]
  by_cases hall : s.expected.all
      (fun tid => (pendingLookup (insertPending s.pending cid r) tid).isSome) = true
  · rw [if_pos hall]
    have hsub : ∀ x ∈ s.expected,
        x ∈ (insertPending s.pending cid r).map Prod.fst := by
      intro x hx
      exact pendingLookup_isSome_mem _ _ (List.all_eq_true.mp hall x hx)
    have hdrain : s.dispatched.erase cid = [] :=
      perm_drained s.expected (s.dispatched.erase cid)
        ((insertPending s.pending cid r).map Prod.fst) hperm2 hnd hsub
    exact stepInv_all_done
      { s with dispatched := s.dispatched.erase cid,
               pending := insertPending s.pending cid r }
      pre asst hconv hrole hids hnd hfresh hpre hdrain hawaitf hround
  · rw [if_neg hall]
    refine ⟨hinv.round_le, ?_, ?_, ?_, ?_, ?_, ?_, ?_, ?_, ?_, ?_⟩
    · intro ha
      have h2 : s.awaiting = true := ha
      rw [hawaitf] at h2
      exact Bool.noConfusion h2
    · intro ha
      have h2 : s.awaiting = true := ha
      rw [hawaitf] at h2
      exact Bool.noConfusion h2
    · intro ha
      have h2 : s.awaiting = true := ha
      rw [hawaitf] at h2
      exact Bool.noConfusion h2
    · intro ha
      have h2 : s.awaiting = true := ha
      rw [hawaitf] at h2
      exact Bool.noConfusion h2
    · intro h; exact absurd h hexp
    · intro h; exact absurd h hexp
    · intro h; exact absurd h hexp
    · intro _; exact hbusy
    · intro _; exact hround
    · intro _
      exact ⟨pre, asst, hconv, hrole, hids, hnd, hfresh, hpre, hperm2⟩

/-- The invariant holds in every safely-reachable controller state. -/
theorem ctrlInv_of_safeReach : ∀ {s : CtrlState}, SafeReach s → CtrlInv s := by
  intro s h
  induction h with
  | init => exact ctrlInv_init
  | step hr hsafe hstep ih =>
      rename_i s0 s1 e
      cases e with
      | sendLLM t =>
          simp only [stepCtrl] at hstep
          by_cases hg : ¬s0.busy = true ∧ t ≠ ""
          · rw [if_pos hg] at hstep
            cases hstep
            exact stepInv_send_llm s0 t ih
              (by cases hb : s0.busy; rfl; exact absurd hb hg.1)
          · rw [if_neg hg] at hstep
            exact Option.noConfusion hstep
      | sendCached t r =>
          simp only [stepCtrl] at hstep
          by_cases hg : ¬s0.busy = true ∧ t ≠ ""
          · rw [if_pos hg] at hstep
            cases hstep
            exact stepInv_send_cached s0 t r ih
              (by cases hb : s0.busy; rfl; exact absurd hb hg.1)
          · rw [if_neg hg] at hstep
            exact Option.noConfusion hstep
      | chunk t =>
          simp only [stepCtrl] at hstep
          by_cases hg : s0.awaiting = true ∧ t ≠ ""
          · rw [if_pos hg] at hstep
            cases hstep
            exact stepInv_chunk s0 t ih
          · rw [if_neg hg] at hstep
            exact Option.noConfusion hstep
      | respText t r =>
          simp only [stepCtrl] at hstep
          by_cases hg : s0.awaiting = true
          · rw [if_pos hg] at hstep
            cases hstep
            exact stepInv_response s0 t r ih hg
          · rw [if_neg hg] at hstep
            exact Option.noConfusion hstep
      | respTools calls t r ap =>
          simp only [stepCtrl] at hstep
          by_cases hg : s0.awaiting = true ∧ calls ≠ []
          · rw [if_pos hg] at hstep
            cases hstep
            obtain ⟨hnd, hfresh⟩ := hsafe
            exact stepInv_tool_calls s0 calls t r ap ih hg.1 hg.2 hnd hfresh
          · rw [if_neg hg] at hstep
            exact Option.noConfusion hstep
      | toolDone cid r =>
          simp only [stepCtrl] at hstep
          by_cases hg : cid ∈ s0.dispatched
          · rw [if_pos hg] at hstep
            cases hstep
            exact stepInv_tool_done s0 cid r ih hg
          · rw [if_neg hg] at hstep
            exact Option.noConfusion hstep
      | stopGen =>
          simp only [stepCtrl] at hstep
          by_cases hg : s0.busy = true
          · rw [if_pos hg] at hstep
            cases hstep
            exact stepInv_stop s0 ih hsafe
          · rw [if_neg hg] at hstep
            exact Option.noConfusion hstep
      | llmError =>
          simp only [stepCtrl] at hstep
          by_cases hg : s0.awaiting = true
          · rw [if_pos hg] at hstep
            cases hstep
            exact stepInv_error s0 ih hg
          · rw [if_neg hg] at hstep
            exact Option.noConfusion hstep

/-- `_on_all_tools_done` advances the round by exactly one, clears the
expectation list, and on hitting the cap clears busy and shows exactly one
more termination notice. -/
theorem all_done_facts (s : CtrlState) :
    (all_tools_done s).expected = [] ∧
    (all_tools_done s).tool_round = s.tool_round + 1 ∧
    ((all_tools_done s).tool_round = MAX_TOOL_ROUNDS →
      (all_tools_done s).busy = false ∧
        (all_tools_done s).notices = s.notices + 1) := by
  rw [all_tools_done]
  by_cases hcap : s.tool_round + 1 ≥ MAX_TOOL_ROUNDS
  · rw [if_pos hcap]
    exact ⟨rfl, rfl, fun _ => ⟨rfl, rfl⟩⟩
  · rw [if_neg hcap]
    refine ⟨rfl, rfl, fun hc => ?_⟩
    have hc2 : s.tool_round + 1 = MAX_TOOL_ROUNDS := hc
    exact absurd hc2 (by omega)

/-- C1: along every safe controller trace (tool batches carry
duplicate-free fresh call ids, and no stop is pressed while tool results
are outstanding), whenever no tool results are outstanding every assistant
message carrying `tool_calls` is followed, before the next user message,
by exactly one `tool`-role message per call id, in any order, with no
duplicates and no omissions.  The unrestricted claim is refuted by
`C1_counterexample`: `_on_stop` clears `_expected_tool_ids` without
synthesizing tool results, leaving the last assistant `tool_calls` message
orphaned. -/
theorem C1_pairing_invariant (s : CtrlState) (h : SafeReach s)
    (hidle : s.expected = []) : pairedOk s.conversation = true :=
  (ctrlInv_of_safeReach h).idle_paired hidle

def tcW1 : ToolCall := ⟨"call_1", "create_cube", "\x7b\x7d"⟩

def c1s1 : CtrlState := on_send_llm ctrlInit "hi"

def c1s2 : CtrlState := on_tool_calls c1s1 [tcW1] "" none true

def c1s3 : CtrlState := on_tool_done c1s2 "call_1" "ok"

theorem c1s3_reach : SafeReach c1s3 :=
  @SafeReach.step c1s2 c1s3 (Ev.toolDone "call_1" "ok")
    (@SafeReach.step c1s1 c1s2 (Ev.respTools [tcW1] "" none true)
      (@SafeReach.step ctrlInit c1s1 (Ev.sendLLM "hi")
        SafeReach.init trivial (by decide))
      ⟨by decide, by decide⟩ (by decide))
    trivial (by decide)

theorem C1_witness : c1s3.expected = [] ∧ pairedOk c1s3.conversation = true :=
  ⟨by decide, C1_pairing_invariant c1s3 c1s3_reach (by decide)⟩

/-- A genuine trace of the controller (user send, approved tool batch,
then stop while the result is still outstanding) after which the
conversation violates the pairing invariant even though no tool results
are expected any more: `_on_stop` never synthesizes results for the
outstanding ids. -/
theorem C1_counterexample :
    (runTrace [Ev.sendLLM "hi",
        Ev.respTools [⟨"call_1", "create_cube", "\x7b\x7d"⟩] "" none true,
        Ev.stopGen]).map
      (fun s => (pairedOk s.conversation, s.expected)) =
      some (false, []) := by
  decide

/-- C2: along every safe controller trace, the tool-round counter
satisfies `0 ≤ round ≤ MAX_TOOL_ROUNDS`; a new user request resets it to
0; a `toolDone` event either leaves it unchanged (results still missing)
or — once per completed cycle — increments it by exactly one, and when the
incremented counter reaches the cap the controller goes idle and shows one
more termination notice; while a request is in flight the round is below
the cap and `tool_choice = "none"` is set exactly on the last permitted
round.  The unrestricted claim is refuted by `C2_counterexample`: after a
stop, straggling deferred executions re-enter `_on_tool_executed` with
`_expected_tool_ids` empty, the `all(...)` check is vacuously true, and
`_tool_round` is incremented past the cap. -/
theorem C2_round_counter (s : CtrlState) (h : SafeReach s) :
    s.tool_round ≤ MAX_TOOL_ROUNDS ∧
    (∀ t, (on_send_llm s t).tool_round = 0) ∧
    (s.awaiting = true → s.tool_round < MAX_TOOL_ROUNDS ∧
      s.tc_none = decide (s.tool_round = MAX_TOOL_ROUNDS - 1)) ∧
    (∀ cid r s2, stepCtrl s (Ev.toolDone cid r) = some s2 →
      (s2.expected ≠ [] ∧ s2.tool_round = s.tool_round) ∨
      (s2.expected = [] ∧ s2.tool_round = s.tool_round + 1 ∧
        (s2.tool_round = MAX_TOOL_ROUNDS →
          s2.busy = false ∧ s2.notices = s.notices + 1))) := by
  have hinv := ctrlInv_of_safeReach h
  refine ⟨hinv.round_le, fun t => rfl,
    fun ha => ⟨hinv.await_round ha, hinv.await_tc ha⟩, ?_⟩
  intro cid r s2 hstep
  simp only [stepCtrl] at hstep
  by_cases hcid : cid ∈ s.dispatched
  · rw [if_pos hcid] at hstep
    cases hstep
    have hexp : s.expected ≠ [] := by
      intro h0
      rw [hinv.idle_disp h0] at hcid
      exact absurd hcid (List.not_mem_nil cid)
    rw [on_tool_done]
    by_cases hall : s.expected.all
        (fun tid =>
          (pendingLookup (insertPending s.pending cid r) tid).isSome) = true
    · rw [if_pos hall]
      obtain ⟨h1, h2, h3⟩ := all_done_facts
        { s with dispatched := s.dispatched.erase cid,
                 pending := insertPending s.pending cid r }
      exact Or.inr ⟨h1, h2, h3⟩
    · rw [if_neg hall]
      exact Or.inl ⟨hexp, rfl⟩
  · rw [if_neg hcid] at hstep
    exact Option.noConfusion hstep

def tcW2a : ToolCall := ⟨"call_a", "create_cube", "\x7b\x7d"⟩

def tcW2b : ToolCall := ⟨"call_b", "create_sphere", "\x7b\x7d"⟩

def c2s1 : CtrlState := on_send_llm ctrlInit "hello"

def c2s2 : CtrlState := on_tool_calls c2s1 [tcW2a, tcW2b] "" none true

def c2s3 : CtrlState := on_tool_done c2s2 "call_a" "ok"

theorem c2s3_reach : SafeReach c2s3 :=
  @SafeReach.step c2s2 c2s3 (Ev.toolDone "call_a" "ok")
    (@SafeReach.step c2s1 c2s2 (Ev.respTools [tcW2a, tcW2b] "" none true)
      (@SafeReach.step ctrlInit c2s1 (Ev.sendLLM "hello")
        SafeReach.init trivial (by decide))
      ⟨by decide, by decide⟩ (by decide))
    trivial (by decide)

theorem C2_witness :
    c2s3.tool_round ≤ MAX_TOOL_ROUNDS ∧
    (on_send_llm c2s3 "again").tool_round = 0 :=
  ⟨(C2_round_counter c2s3 c2s3_reach).1,
    (C2_round_counter c2s3 c2s3_reach).2.1 "again"⟩

/-- A genuine trace on which the round counter exceeds the cap: an
approved batch of 11 calls, a stop (which clears `_expected_tool_ids` but
cannot cancel the already-queued deferred executions), and then the 11
straggling completions, each of which passes the vacuous `all(...)` check
and increments `_tool_round`, ending at 11 > `MAX_TOOL_ROUNDS` = 10. -/
theorem C2_counterexample :
    (runTrace ([Ev.sendLLM "hi",
        Ev.respTools [⟨"c01", "t", "a"⟩, ⟨"c02", "t", "a"⟩, ⟨"c03", "t", "a"⟩,
          ⟨"c04", "t", "a"⟩, ⟨"c05", "t", "a"⟩, ⟨"c06", "t", "a"⟩,
          ⟨"c07", "t", "a"⟩, ⟨"c08", "t", "a"⟩, ⟨"c09", "t", "a"⟩,
          ⟨"c10", "t", "a"⟩, ⟨"c11", "t", "a"⟩] "" none true,
        Ev.stopGen] ++
        (["c01", "c02", "c03", "c04", "c05", "c06", "c07", "c08", "c09",
          "c10", "c11"].map fun i => Ev.toolDone i "r"))).map
      (fun s => s.tool_round) = some (MAX_TOOL_ROUNDS + 1) := by
  decide
